import Mathlib

/-!
# go-getter: the tar.gz decompressor

A shallow embedding of `decompress_tgz.go` (`TarGzipDecompressor.Decompress`,
`decompTgzWrite`, `decompTgzMakeDev`) together with the properties of it that
the specification states.

The Go code talks to the operating system (`os.MkdirAll`, `os.OpenFile`,
`io.Copy`, `os.Symlink`, `syscall.Mknod`) and to the `gzip` and `tar` readers.
These calls are passed to the embedding as a record `OS σ` of state-passing
functions over a state type `σ`; every call returns the error it reports
(`none` for `nil`) together with the state it leaves behind.  `log.Printf` only
writes to the process log and is left out.
-/

namespace Getter

/-! ## Data model -/

/-- The errors `Decompress` can return.  The four `fmt.Errorf` sites of the
function are kept apart; an error that a library call returned and that is
handed on unchanged is `os`. -/
inductive Err where
  | os (msg : String)
  | gzip (src cause : String)
  | emptyArchive (src : String)
  | multiple (src : String)
  | expectedSingle (src : String)
  deriving DecidableEq

/-- The text of an error, with the format strings of the source. -/
def Err.Error : Err → String
  | .os msg => msg
  | .gzip src cause => "Error opening a gzip reader for " ++ src ++ ": " ++ cause
  | .emptyArchive src => "empty archive: " ++ src
  | .multiple src => "expected a single file, got multiple: " ++ src
  | .expectedSingle src => "expected a single file: " ++ src

/-- Type flag `tar.TypeReg`, the byte `0` in ASCII. -/
def TypeReg : Nat := 48
/-- Type flag `tar.TypeRegA`, the NUL byte. -/
def TypeRegA : Nat := 0
/-- Type flag `tar.TypeLink`, the byte `1` in ASCII. -/
def TypeLink : Nat := 49
/-- Type flag `tar.TypeSymlink`, the byte `2` in ASCII. -/
def TypeSymlink : Nat := 50
/-- Type flag `tar.TypeChar`, the byte `3` in ASCII. -/
def TypeChar : Nat := 51
/-- Type flag `tar.TypeBlock`, the byte `4` in ASCII. -/
def TypeBlock : Nat := 52
/-- Type flag `tar.TypeDir`, the byte `5` in ASCII. -/
def TypeDir : Nat := 53
/-- Type flag `tar.TypeFifo`, the byte `6` in ASCII. -/
def TypeFifo : Nat := 54
/-- Type flag `tar.TypeGNUSparse`, the letter `S`. -/
def TypeGNUSparse : Nat := 83
/-- Type flag `tar.TypeGNULongName`, the letter `L`. -/
def TypeGNULongName : Nat := 76
/-- Type flag `tar.TypeGNULongLink`, the letter `K`. -/
def TypeGNULongLink : Nat := 75

/-- The fields of a `tar.Header` that `Decompress` reads.  `FileInfoMode` is the
`os.FileMode` that `hdr.FileInfo().Mode()` returns for the header; its low nine
bits are the permission bits stored in the entry. -/
structure Header where
  Name : String
  Typeflag : Nat
  Linkname : String
  FileInfoMode : Nat
  Devmajor : Int
  Devminor : Int

/-- One entry of the tar stream: its header, the bytes of its body that can be
read, and the error (if any) that reading the body ends with instead of the
end of the body. -/
structure Entry where
  hdr : Header
  data : List Nat
  readErr : Option String

/-- What opening the source yields: `os.Open` fails, `gzip.NewReader` fails, or
there is a tar stream.  A tar stream is the list of entries that successive
calls of `Next` return, followed by `io.EOF` (`last = none`) or by another
error (`last = some e`). -/
inductive Source where
  | openErr (e : String)
  | gzipErr (e : String)
  | tar (entries : List Entry) (last : Option String)

/-- The calls `Decompress` makes to its environment.  `OpenFile` is
`os.OpenFile` with the flags `O_RDWR|O_CREATE|O_TRUNC`; `Copy path data` is the
writing half of `io.Copy` into the file opened at `path`; `Open` stands for
`os.Open`, `gzip.NewReader` and `tar.NewReader` on the source path. -/
structure OS (σ : Type) where
  MkdirAll : String → Nat → σ → Option String × σ
  OpenFile : String → Nat → σ → Option String × σ
  Copy : String → List Nat → σ → Option String × σ
  Symlink : String → String → σ → Option String × σ
  Mknod : String → Nat → Nat → σ → Option String × σ
  Open : String → σ → Source

/-! ## `path/filepath` on a Unix system -/

namespace filepath

/-- The elements of a path between its separators. -/
def splitSlash : List Char → List (List Char)
  | [] => [[]]
  | c :: cs =>
    match splitSlash cs with
    | [] => [[]]
    | w :: ws => if c = '/' then [] :: w :: ws else (c :: w) :: ws

/-- The elements joined by single separators. -/
def joinSlash : List (List Char) → List Char
  | [] => []
  | [w] => w
  | w :: ws => w ++ '/' :: joinSlash ws

/-- One step of `Clean`: `stk` holds the elements written so far, the last
one first.  Empty elements and `.` are dropped; `..` removes the last element,
is dropped at the root, and is kept where a relative path has nothing left to
remove. -/
def cleanStep (rooted : Bool) (stk : List (List Char)) (c : List Char) : List (List Char) :=
  if c = [] ∨ c = ['.'] then stk
  else if c = ['.', '.'] then
    match stk with
    | [] => if rooted then [] else [c]
    | t :: rest => if t = ['.', '.'] then c :: t :: rest else rest
  else c :: stk

/-- The elements of the cleaned path, in order. -/
def cleanElems (rooted : Bool) (cs : List Char) : List (List Char) :=
  ((splitSlash cs).foldl (cleanStep rooted) []).reverse

/-- Whether a path starts with the separator. -/
def isRooted (cs : List Char) : Bool := cs.head? = some '/'

/-- The text of a cleaned path with the given elements: a rooted path starts
with the separator, and a relative path without elements is `.`. -/
def render (rooted : Bool) (elems : List (List Char)) : String :=
  if rooted then ⟨'/' :: joinSlash elems⟩
  else if joinSlash elems = [] then "."
  else ⟨joinSlash elems⟩

/-- The function `filepath.Clean`: the shortest path equivalent to `path` by
purely lexical processing. -/
def Clean (path : String) : String :=
  if path.data = [] then "."
  else render (isRooted path.data) (cleanElems (isRooted path.data) path.data)

/-- The function `filepath.Join` for two elements: empty leading elements are
ignored, the rest is joined by separators and cleaned. -/
def Join (a b : String) : String :=
  if a ≠ "" then Clean (a ++ "/" ++ b)
  else if b ≠ "" then Clean b
  else ""

/-- The function `filepath.Dir`: all but the last element of the path,
cleaned. -/
def Dir (path : String) : String :=
  Clean ⟨(path.data.reverse.dropWhile (fun c => c ≠ '/')).reverse⟩

end filepath

/-! ## The decompressor -/

/-- The function `decompTgzWrite`: create or truncate the file at `path` with
`mode`, then copy the body of the entry into it until the body ends or an error
occurs. -/
def decompTgzWrite {σ : Type} (os : OS σ) (path : String) (mode : Nat) (e : Entry) (s : σ) :
    Option String × σ :=
  match os.OpenFile path mode s with
  | (some err, s1) => (some err, s1)
  | (none, s1) =>
    match os.Copy path e.data s1 with
    | (some err, s2) => (some err, s2)
    | (none, s2) => (e.readErr, s2)

/-- The constant `syscall.S_IFIFO`. -/
def S_IFIFO : Nat := 0x1000

/-- Handing on the error of a library call. -/
def liftErr {σ : Type} (r : Option String × σ) : Option Err × σ :=
  (r.1.map Err.os, r.2)

/-- The `switch hdr.Typeflag` of `Decompress` for one entry.  The result is the
error the function returns from inside the switch, or `none` when the loop goes
on with the next entry.  The block and character device cases end with
`continue` once the body is written; the statements that follow it in the
source, which call `decompTgzMakeDev` and `syscall.Mknod`, are never run and
have no counterpart here. -/
def dispatch {σ : Type} (os : OS σ) (src : String) (dir : Bool) (path : String) (e : Entry)
    (s : σ) : Option Err × σ :=
  let mode := e.hdr.FileInfoMode
  let t := e.hdr.Typeflag
  if t = TypeDir then
    if !dir then (some (Err.expectedSingle src), s)
    else liftErr (os.MkdirAll path mode s)
  else if t = TypeReg ∨ t = TypeRegA ∨ t = TypeGNULongName then
    liftErr (decompTgzWrite os path mode e s)
  else if t = TypeSymlink ∨ t = TypeGNULongLink then
    (none, (os.Symlink e.hdr.Linkname path s).2)
  else if t = TypeLink ∨ t = TypeGNUSparse then
    liftErr (decompTgzWrite os path mode e s)
  else if t = TypeFifo then
    liftErr (os.Mknod path ((mode % 2 ^ 32) ||| S_IFIFO) 0 s)
  else if t = TypeBlock then
    liftErr (decompTgzWrite os path mode e s)
  else if t = TypeChar then
    liftErr (decompTgzWrite os path mode e s)
  else (none, s)

/-- The `for` loop of `Decompress`, started with the flag `done` on the
entries the tar reader has yet to return. -/
def loop {σ : Type} (os : OS σ) (dst src : String) (dir : Bool) :
    Bool → List Entry → Option String → σ → Option Err × σ
  | done, [], last, s =>
    match last with
    | none => if !done then (some (Err.emptyArchive src), s) else (none, s)
    | some err => (some (Err.os err), s)
  | done, e :: rest, last, s =>
    if !dir && done then (some (Err.multiple src), s)
    else
      let path := if dir then filepath.Join dst e.hdr.Name else dst
      match dispatch os src dir path e s with
      | (some err, s1) => (some err, s1)
      | (none, s1) => loop os dst src dir true rest last s1

/-- The method `TarGzipDecompressor.Decompress`; the receiver is an empty
struct and is left out.  The result is the error returned (`none` for `nil`)
and the state of the environment at the return. -/
def Decompress {σ : Type} (os : OS σ) (dst src : String) (dir : Bool) (s : σ) :
    Option Err × σ :=
  let mkdir := if !dir then filepath.Dir dst else dst
  match os.MkdirAll mkdir 0o755 s with
  | (some err, s1) => (some (Err.os err), s1)
  | (none, s1) =>
    match os.Open src s1 with
    | .openErr err => (some (Err.os err), s1)
    | .gzipErr err => (some (Err.gzip src err), s1)
    | .tar entries last => loop os dst src dir false entries last s1

/-! ## Device numbers -/

/-- The bit pattern of an `int64`. -/
def toBits64 (x : Int) : Nat := (x % 2 ^ 64).toNat

/-- The `int64` with a given bit pattern. -/
def ofBits64 (n : Nat) : Int :=
  if n % 2 ^ 64 < 2 ^ 63 then (n % 2 ^ 64 : Nat) else (n % 2 ^ 64 : Nat) - 2 ^ 64

/-- Left shift of an `int64` bit pattern. -/
def shl64 (x k : Nat) : Nat := (x <<< k) % 2 ^ 64

/-- Bitwise complement of an `int64` bit pattern. -/
def not64 (x : Nat) : Nat := 2 ^ 64 - 1 - x % 2 ^ 64

/-- The function `decompTgzMakeDev`, on a platform whose `int` has 64 bits. -/
def decompTgzMakeDev (major minor : Int) : Int :=
  let mj := toBits64 major
  let mn := toBits64 minor
  ofBits64 ((mn &&& 0xff) ||| shl64 (mj &&& 0xfff) 8 ||| shl64 (mn &&& not64 0xff) 12
    ||| shl64 (mj &&& not64 0xfff) 32)

/-! ## Environments used to run the decompressor -/

/-- A call of the decompressor to its environment, with its arguments. -/
inductive Call where
  | mkdirAll (path : String) (perm : Nat)
  | openFile (path : String) (perm : Nat)
  | copy (path : String) (data : List Nat)
  | symlink (linkname path : String)
  | mknod (path : String) (mode dev : Nat)
  deriving DecidableEq

/-- The path at which a call creates or writes a filesystem object. -/
def Call.path : Call → String
  | .mkdirAll p _ => p
  | .openFile p _ => p
  | .copy p _ => p
  | .symlink _ p => p
  | .mknod p _ _ => p

/-- The recording environment: every call succeeds and is appended to the
log; the source path `src` holds the archive `srcs src`. -/
def traceOS (srcs : String → Source) : OS (List Call) where
  MkdirAll p m s := (none, s ++ [Call.mkdirAll p m])
  OpenFile p m s := (none, s ++ [Call.openFile p m])
  Copy p d s := (none, s ++ [Call.copy p d])
  Symlink l p s := (none, s ++ [Call.symlink l p])
  Mknod p m d s := (none, s ++ [Call.mknod p m d])
  Open src _ := srcs src

/-- The environment `os` with a log: every call is passed on to `os` and
appended, with its arguments, to the log kept next to the state of `os`. -/
def recordOS {σ : Type} (os : OS σ) : OS (σ × List Call) where
  MkdirAll p m s := ((os.MkdirAll p m s.1).1, (os.MkdirAll p m s.1).2, s.2 ++ [Call.mkdirAll p m])
  OpenFile p m s := ((os.OpenFile p m s.1).1, (os.OpenFile p m s.1).2, s.2 ++ [Call.openFile p m])
  Copy p d s := ((os.Copy p d s.1).1, (os.Copy p d s.1).2, s.2 ++ [Call.copy p d])
  Symlink l p s := ((os.Symlink l p s.1).1, (os.Symlink l p s.1).2, s.2 ++ [Call.symlink l p])
  Mknod p m d s := ((os.Mknod p m d s.1).1, (os.Mknod p m d s.1).2, s.2 ++ [Call.mknod p m d])
  Open src s := os.Open src s.1

/-- The environment `os` with the error that `os.Symlink` reports thrown away:
the call has the same effect on the state and always reports success. -/
def silentSymlink {σ : Type} (os : OS σ) : OS σ :=
  { os with Symlink := fun l p s => (none, (os.Symlink l p s).2) }

/-- The environment `os` in which `Mknod` is only available for creating
FIFOs with device number 0; any other `Mknod` call fails. -/
def fifoOnlyMknod {σ : Type} (os : OS σ) : OS σ :=
  { os with Mknod := fun p m d s =>
      if m &&& S_IFIFO = S_IFIFO ∧ d = 0 then os.Mknod p m d s else (some "mknod: device node", s) }

/-- A block or character device entry turned into a regular-file entry with
the same name, mode and content; other entries are left as they are. -/
def deviceAsRegular (e : Entry) : Entry :=
  if e.hdr.Typeflag = TypeBlock ∨ e.hdr.Typeflag = TypeChar then
    { e with hdr := { e.hdr with Typeflag := TypeReg } }
  else e

/-- The environment `os` in which every archive is read with its entries
changed by `f`. -/
def mapEntries {σ : Type} (f : List Entry → List Entry) (os : OS σ) : OS σ :=
  { os with Open := fun src s =>
      match os.Open src s with
      | .tar entries last => .tar (f entries) last
      | .openErr e => .openErr e
      | .gzipErr e => .gzipErr e }

/-- The type flags the `switch` of `Decompress` has a case for. -/
def Recognized (t : Nat) : Prop :=
  t = TypeDir ∨ t = TypeReg ∨ t = TypeRegA ∨ t = TypeGNULongName ∨ t = TypeSymlink ∨
    t = TypeGNULongLink ∨ t = TypeLink ∨ t = TypeGNUSparse ∨ t = TypeFifo ∨ t = TypeBlock ∨
    t = TypeChar

instance (t : Nat) : Decidable (Recognized t) := by unfold Recognized; infer_instance

/-- A header with the given name and type flag, mode `0644`, and no link. -/
def mkHeader (name : String) (t : Nat) : Header :=
  { Name := name, Typeflag := t, Linkname := "", FileInfoMode := 0o644, Devmajor := 0,
    Devminor := 0 }

/-- An entry with the given name, type flag and body, mode `0644`. -/
def mkEntry (name : String) (t : Nat) (data : List Nat) : Entry :=
  { hdr := mkHeader name t, data := data, readErr := none }

/-! ## An in-memory filesystem

The environment used for the claims about what the filesystem holds after an
extraction.  Objects are found by the cleaned text of their path: path
resolution is lexical and symbolic links are not followed.  A call whose path
names a symbolic link or a FIFO where a file or directory is wanted, or passes
through one, is outside the model and reports an error.  Of a mode only the
nine permission bits are kept, less the bits of the process umask; access
permissions are not checked. -/

/-- An object of the filesystem. -/
inductive Node where
  | dir (perm : Nat)
  | file (perm : Nat) (content : List Nat)
  | symlink (target : String)
  | fifo (perm : Nat)
  deriving DecidableEq

/-- A filesystem: the object, if any, at each cleaned path. -/
abbrev FS := String → Option Node

/-- The filesystem with the object at `k` replaced. -/
def FS.set (fs : FS) (k : String) (n : Node) : FS := fun q => if q = k then some n else fs q

/-- The object a path names. -/
def FS.stat (fs : FS) (path : String) : Option Node := fs (filepath.Clean path)

/-- Whether a directory is at `k`. -/
def FS.isDir (fs : FS) (k : String) : Bool :=
  match fs k with
  | some (Node.dir _) => true
  | _ => false

/-- The permission bits a new object gets: those of `mode` that the umask does
not clear. -/
def applyUmask (mode umask : Nat) : Nat := (mode % 512) &&& (511 ^^^ (umask % 512))

/-- The cleaned path of the directory that holds the object named by `path`. -/
def parentKey (path : String) : String :=
  filepath.render (filepath.isRooted path.data)
    (filepath.cleanElems (filepath.isRooted path.data) path.data).dropLast

/-- A path no object can be created at by name: the empty path, or one that
ends with the separator. -/
def badLeaf (path : String) : Prop := path = "" ∨ path.data.getLast? = some '/'

instance (path : String) : Decidable (badLeaf path) := by unfold badLeaf; infer_instance

/-- The call `os.Mkdir` at the cleaned path `k`, whose directory is at
`parent`. -/
def FS.Mkdir (umask : Nat) (k parent : String) (perm : Nat) (fs : FS) : Option String × FS :=
  match fs k with
  | some _ => (some "file exists", fs)
  | none =>
    if fs.isDir parent then (none, fs.set k (Node.dir (applyUmask perm umask)))
    else (some "no such file or directory", fs)

/-- The recursion of `os.MkdirAll` on the elements of the cleaned path, the
last element first: a directory that is there is fine, another object is an
error, and otherwise the parent is made first and then the directory. -/
def FS.mkdirAllElems (umask : Nat) (rooted : Bool) (perm : Nat) :
    List (List Char) → FS → Option String × FS
  | [], fs =>
    match fs (filepath.render rooted []) with
    | some (Node.dir _) => (none, fs)
    | some _ => (some "not a directory", fs)
    | none => (some "no such file or directory", fs)
  | e :: up, fs =>
    match fs (filepath.render rooted (e :: up).reverse) with
    | some (Node.dir _) => (none, fs)
    | some _ => (some "not a directory", fs)
    | none =>
      match (if up = [] then (none, fs) else FS.mkdirAllElems umask rooted perm up fs) with
      | (some err, fs1) => (some err, fs1)
      | (none, fs1) =>
        match FS.Mkdir umask (filepath.render rooted (e :: up).reverse)
            (filepath.render rooted up.reverse) perm fs1 with
        | (none, fs2) => (none, fs2)
        | (some err, fs2) =>
          match fs2 (filepath.render rooted (e :: up).reverse) with
          | some (Node.dir _) => (none, fs2)
          | _ => (some err, fs2)

/-- The call `os.MkdirAll`. -/
def FS.MkdirAll (umask : Nat) (path : String) (perm : Nat) (fs : FS) : Option String × FS :=
  if path = "" then (some "no such file or directory", fs)
  else
    FS.mkdirAllElems umask (filepath.isRooted path.data) perm
      (filepath.cleanElems (filepath.isRooted path.data) path.data).reverse fs

/-- The call `os.OpenFile` with `O_RDWR|O_CREATE|O_TRUNC`: a file that is
there is truncated and keeps its mode; a missing one is created in its
directory with the permission bits of `mode` less the umask. -/
def FS.OpenFile (umask : Nat) (path : String) (mode : Nat) (fs : FS) : Option String × FS :=
  if badLeaf path then (some "is a directory", fs)
  else
    match fs (filepath.Clean path) with
    | some (Node.file perm _) => (none, fs.set (filepath.Clean path) (Node.file perm []))
    | some (Node.dir _) => (some "is a directory", fs)
    | some _ => (some "not a regular file", fs)
    | none =>
      if fs.isDir (parentKey path) then
        (none, fs.set (filepath.Clean path) (Node.file (applyUmask mode umask) []))
      else (some "no such file or directory", fs)

/-- Writing `data` to the file opened at `path`. -/
def FS.Copy (path : String) (data : List Nat) (fs : FS) : Option String × FS :=
  match fs (filepath.Clean path) with
  | some (Node.file perm content) =>
    (none, fs.set (filepath.Clean path) (Node.file perm (content ++ data)))
  | _ => (some "bad file descriptor", fs)

/-- The call `os.Symlink`: the link is created where nothing is yet. -/
def FS.Symlink (linkname path : String) (fs : FS) : Option String × FS :=
  if badLeaf path then (some "no such file or directory", fs)
  else
    match fs (filepath.Clean path) with
    | some _ => (some "file exists", fs)
    | none =>
      if fs.isDir (parentKey path) then
        (none, fs.set (filepath.Clean path) (Node.symlink linkname))
      else (some "no such file or directory", fs)

/-- The call `syscall.Mknod` for a FIFO; other kinds of node are refused. -/
def FS.Mknod (umask : Nat) (path : String) (mode dev : Nat) (fs : FS) : Option String × FS :=
  if badLeaf path then (some "no such file or directory", fs)
  else if (mode % 2 ^ 16) &&& 0xf000 ≠ S_IFIFO ∨ dev ≠ 0 then (some "operation not permitted", fs)
  else
    match fs (filepath.Clean path) with
    | some _ => (some "file exists", fs)
    | none =>
      if fs.isDir (parentKey path) then
        (none, fs.set (filepath.Clean path) (Node.fifo (applyUmask mode umask)))
      else (some "no such file or directory", fs)

/-- The filesystem as an environment of the decompressor, for a process with
the given umask; the source path `src` holds the archive `srcs src`. -/
def fsOS (umask : Nat) (srcs : String → Source) : OS FS where
  MkdirAll := FS.MkdirAll umask
  OpenFile := FS.OpenFile umask
  Copy := FS.Copy
  Symlink := FS.Symlink
  Mknod := FS.Mknod umask
  Open src _ := srcs src

/-! ### Following a symbolic link at the last element

As `open(2)` does, `os.OpenFile` follows a symbolic link that the path names:
the file opened is the one the link points to.  The environment `fsFollowOS`
is the filesystem above with this added for `OpenFile` and for the writes
through the opened file.  One link is followed; a link to a link and a link
met before the last element of a path are still reported as errors. -/

/-- The cleaned path of the object that opening `path` reaches: where a
symbolic link is at the path, the target of the link, taken from the
directory of the link when it is relative. -/
def FS.resolve (fs : FS) (path : String) : String :=
  match fs (filepath.Clean path) with
  | some (Node.symlink target) =>
    if filepath.isRooted target.data then filepath.Clean target
    else filepath.Join (parentKey path) target
  | _ => filepath.Clean path

/-- The call `os.OpenFile` with `O_RDWR|O_CREATE|O_TRUNC`, following a symbolic
link at the path. -/
def FS.OpenFileFollow (umask : Nat) (path : String) (mode : Nat) (fs : FS) :
    Option String × FS :=
  if badLeaf path then (some "is a directory", fs)
  else
    match fs (fs.resolve path) with
    | some (Node.file perm _) => (none, fs.set (fs.resolve path) (Node.file perm []))
    | some (Node.dir _) => (some "is a directory", fs)
    | some (Node.symlink _) => (some "too many levels of symbolic links", fs)
    | some (Node.fifo _) => (some "not a regular file", fs)
    | none =>
      if fs.isDir (parentKey (fs.resolve path)) then
        (none, fs.set (fs.resolve path) (Node.file (applyUmask mode umask) []))
      else (some "no such file or directory", fs)

/-- Writing `data` to the file opened at `path`, a symbolic link at the path
being followed as when the file was opened. -/
def FS.CopyFollow (path : String) (data : List Nat) (fs : FS) : Option String × FS :=
  match fs (fs.resolve path) with
  | some (Node.file perm content) =>
    (none, fs.set (fs.resolve path) (Node.file perm (content ++ data)))
  | _ => (some "bad file descriptor", fs)

/-- The filesystem as an environment of the decompressor, with `OpenFile`
following a symbolic link at the path. -/
def fsFollowOS (umask : Nat) (srcs : String → Source) : OS FS where
  MkdirAll := FS.MkdirAll umask
  OpenFile := FS.OpenFileFollow umask
  Copy := FS.CopyFollow
  Symlink := FS.Symlink
  Mknod := FS.Mknod umask
  Open src _ := srcs src

/-- A symbolic link entry with the given name and target. -/
def mkSymlink (name target : String) : Entry :=
  { hdr := { mkHeader name TypeSymlink with Linkname := target, FileInfoMode := 0o777 },
    data := [], readErr := none }

/-- A filesystem with the directories `/`, `/etc`, `/tmp` and `/tmp/out`, and
at `/tmp/out.txt` a symbolic link to `/tmp/elsewhere`, where nothing is. -/
def exampleLinkFS : FS := fun q =>
  if q = "/" then some (Node.dir 0o755)
  else if q = "/etc" then some (Node.dir 0o755)
  else if q = "/tmp" then some (Node.dir 0o777)
  else if q = "/tmp/out" then some (Node.dir 0o755)
  else if q = "/tmp/out.txt" then some (Node.symlink "/tmp/elsewhere")
  else none

/-- The type flags whose entries are written as files by `decompTgzWrite`. -/
def isWriteType (t : Nat) : Prop :=
  t = TypeReg ∨ t = TypeRegA ∨ t = TypeGNULongName ∨ t = TypeLink ∨ t = TypeGNUSparse ∨
    t = TypeBlock ∨ t = TypeChar

instance (t : Nat) : Decidable (isWriteType t) := by unfold isWriteType; infer_instance

/-- A filesystem with the directories `/`, `/tmp` and `/tmp/out` and the file
`/tmp/out/a`, of mode `0600` and content `[1]`. -/
def exampleFS : FS := fun q =>
  if q = "/" then some (Node.dir 0o755)
  else if q = "/tmp" then some (Node.dir 0o777)
  else if q = "/tmp/out" then some (Node.dir 0o755)
  else if q = "/tmp/out/a" then some (Node.file 0o600 [1])
  else none

/-! ## Paths under a directory -/

namespace filepath

/-- The elements of a path after cleaning. -/
def pathElems (p : String) : List (List Char) := cleanElems (isRooted p.data) p.data

/-- Whether the first list of elements starts the second. -/
def elemsUnder : List (List Char) → List (List Char) → Bool
  | [], _ => true
  | _ :: _, [] => false
  | a :: as, b :: bs => decide (a = b) && elemsUnder as bs

/-- The path `p` lies under the directory `dst`: both are absolute or both
relative, and the elements of the cleaned `dst` start those of the cleaned
`p`. -/
def Under (dst p : String) : Prop :=
  isRooted p.data = isRooted dst.data ∧ elemsUnder (pathElems dst) (pathElems p) = true

instance (dst p : String) : Decidable (Under dst p) := by unfold Under; infer_instance

/-- An element that `Clean` keeps: not empty, not `.`, without separator. -/
def okElem (c : List Char) : Prop := c ≠ [] ∧ c ≠ ['.'] ∧ '/' ∉ c

/-- The shape of the element stack of `Clean`, last element first: every
element is one that `Clean` keeps, and a `..` only occurs in a relative path
with nothing but `..` before it. -/
def GoodStk (r : Bool) : List (List Char) → Prop
  | [] => True
  | t :: rest =>
    okElem t ∧ (t = ['.', '.'] → r = false ∧ ∀ u ∈ rest, u = ['.', '.']) ∧ GoodStk r rest

end filepath

/-! ## The device number as the specification words it -/

/-- The packing of a device number in the words of the specification: the low
byte of `minor`, then the low 12 bits of `major` from bit 8, the rest of `minor`
from bit 20 and the rest of `major` from bit 32. -/
def specMakeDev (major minor : Int) : Int :=
  minor % 256 + (major % 4096) * 2 ^ 8 + (minor / 256) * 2 ^ 20 + (major / 4096) * 2 ^ 32

/-! ## Basic facts about the loop -/

theorem loop_nil {σ : Type} (os : OS σ) (dst src : String) (dir done : Bool) (s : σ) :
    loop os dst src dir done [] none s =
      if !done then (some (Err.emptyArchive src), s) else (none, s) := by
  simp [loop]

theorem loop_cons {σ : Type} (os : OS σ) (dst src : String) (dir done : Bool) (e : Entry)
    (rest : List Entry) (last : Option String) (s : σ) :
    loop os dst src dir done (e :: rest) last s =
      if !dir && done then (some (Err.multiple src), s)
      else
        match dispatch os src dir (if dir then filepath.Join dst e.hdr.Name else dst) e s with
        | (some err, s1) => (some err, s1)
        | (none, s1) => loop os dst src dir true rest last s1 := by
  simp [loop]

theorem liftErr_ne_emptyArchive {σ : Type} (r : Option String × σ) (src : String) :
    (liftErr r).1 ≠ some (Err.emptyArchive src) := by
  rcases r with ⟨_ | e, s⟩ <;> simp [liftErr]

theorem dispatch_ne_emptyArchive {σ : Type} (os : OS σ) (src : String) (dir : Bool)
    (path : String) (e : Entry) (s : σ) :
    (dispatch os src dir path e s).1 ≠ some (Err.emptyArchive src) := by
  unfold dispatch
  simp only
  split_ifs <;> first | exact liftErr_ne_emptyArchive _ _ | simp

/-- The loop returns the empty-archive error only when it is started with the
flag unset on a stream that ends at once. -/
theorem loop_ne_emptyArchive {σ : Type} (os : OS σ) (dst src : String) (dir : Bool) :
    ∀ (entries : List Entry) (done : Bool) (last : Option String) (s : σ),
      (done = true ∨ entries ≠ []) →
      (loop os dst src dir done entries last s).1 ≠ some (Err.emptyArchive src)
  | [], done, last, s, h => by
    rcases h with h | h
    · subst h
      cases last <;> simp [loop]
    · exact absurd rfl h
  | e :: rest, done, last, s, _ => by
    rw [loop_cons]
    by_cases hc : (!dir && done) = true
    · simp [hc]
    · rw [if_neg hc]
      generalize (if dir = true then filepath.Join dst e.hdr.Name else dst) = path
      have hd := dispatch_ne_emptyArchive os src dir path e s
      rcases hdis : dispatch os src dir path e s with ⟨_ | err, s1⟩
      · exact loop_ne_emptyArchive os dst src dir rest true last s1 (Or.inl rfl)
      · rw [hdis] at hd
        exact hd

theorem dispatch_unrecognized {σ : Type} (os : OS σ) (src : String) (dir : Bool)
    (path : String) (e : Entry) (s : σ) (h : ¬ Recognized e.hdr.Typeflag) :
    dispatch os src dir path e s = (none, s) := by
  unfold Recognized at h
  simp only [not_or] at h
  obtain ⟨h1, h2, h3, h4, h5, h6, h7, h8, h9, h10, h11⟩ := h
  simp [dispatch, h1, h2, h3, h4, h5, h6, h7, h8, h9, h10, h11]

/-- In directory mode a stream of entries of unrecognized type is run through
without any call to the environment. -/
theorem loop_unrecognized {σ : Type} (os : OS σ) (dst src : String) :
    ∀ (entries : List Entry) (done : Bool) (s : σ),
      (done = true ∨ entries ≠ []) →
      (∀ e ∈ entries, ¬ Recognized e.hdr.Typeflag) →
      loop os dst src true done entries none s = (none, s)
  | [], done, s, h, _ => by
    rcases h with h | h
    · subst h
      simp [loop]
    · exact absurd rfl h
  | e :: rest, done, s, _, hall => by
    rw [loop_cons]
    simp only [Bool.not_true, Bool.false_and, if_true]
    rw [dispatch_unrecognized os src true _ e s (hall e (List.mem_cons_self _ _))]
    simp only [Bool.false_eq_true, if_false]
    exact loop_unrecognized os dst src rest true s (Or.inl rfl)
      (fun e' he' => hall e' (List.mem_cons_of_mem _ he'))

theorem or_S_IFIFO_and (x : Nat) : (x ||| S_IFIFO) &&& S_IFIFO = S_IFIFO := by
  apply Nat.eq_of_testBit_eq
  intro i
  simp only [Nat.testBit_and, Nat.testBit_or]
  cases Nat.testBit x i <;> cases Nat.testBit S_IFIFO i <;> rfl

theorem decompTgzWrite_silentSymlink {σ : Type} (os : OS σ) (path : String) (mode : Nat)
    (e : Entry) (s : σ) :
    decompTgzWrite (silentSymlink os) path mode e s = decompTgzWrite os path mode e s := rfl

theorem dispatch_silentSymlink {σ : Type} (os : OS σ) (src : String) (dir : Bool)
    (path : String) (e : Entry) (s : σ) :
    dispatch (silentSymlink os) src dir path e s = dispatch os src dir path e s := by
  simp only [dispatch, decompTgzWrite_silentSymlink]
  rfl

theorem loop_silentSymlink {σ : Type} (os : OS σ) (dst src : String) (dir : Bool) :
    ∀ (entries : List Entry) (done : Bool) (last : Option String) (s : σ),
      loop (silentSymlink os) dst src dir done entries last s =
        loop os dst src dir done entries last s
  | [], done, last, s => by cases last <;> simp [loop]
  | e :: rest, done, last, s => by
    rw [loop_cons, loop_cons, dispatch_silentSymlink]
    by_cases hc : (!dir && done) = true
    · simp [hc]
    · rw [if_neg hc, if_neg hc]
      rcases dispatch os src dir (if dir = true then filepath.Join dst e.hdr.Name else dst) e s
        with ⟨_ | err, s1⟩
      · exact loop_silentSymlink os dst src dir rest true last s1
      · rfl

theorem decompTgzWrite_fifoOnlyMknod {σ : Type} (os : OS σ) (path : String) (mode : Nat)
    (e : Entry) (s : σ) :
    decompTgzWrite (fifoOnlyMknod os) path mode e s = decompTgzWrite os path mode e s := rfl

theorem dispatch_fifoOnlyMknod {σ : Type} (os : OS σ) (src : String) (dir : Bool)
    (path : String) (e : Entry) (s : σ) :
    dispatch (fifoOnlyMknod os) src dir path e s = dispatch os src dir path e s := by
  simp only [dispatch, decompTgzWrite_fifoOnlyMknod]
  simp [fifoOnlyMknod, or_S_IFIFO_and]

theorem loop_fifoOnlyMknod {σ : Type} (os : OS σ) (dst src : String) (dir : Bool) :
    ∀ (entries : List Entry) (done : Bool) (last : Option String) (s : σ),
      loop (fifoOnlyMknod os) dst src dir done entries last s =
        loop os dst src dir done entries last s
  | [], done, last, s => by cases last <;> simp [loop]
  | e :: rest, done, last, s => by
    rw [loop_cons, loop_cons, dispatch_fifoOnlyMknod]
    by_cases hc : (!dir && done) = true
    · simp [hc]
    · rw [if_neg hc, if_neg hc]
      rcases dispatch os src dir (if dir = true then filepath.Join dst e.hdr.Name else dst) e s
        with ⟨_ | err, s1⟩
      · exact loop_fifoOnlyMknod os dst src dir rest true last s1
      · rfl

theorem decompTgzWrite_deviceAsRegular {σ : Type} (os : OS σ) (path : String) (mode : Nat)
    (e : Entry) (s : σ) :
    decompTgzWrite os path mode (deviceAsRegular e) s = decompTgzWrite os path mode e s := by
  unfold deviceAsRegular
  split_ifs <;> rfl

theorem dispatch_device {σ : Type} (os : OS σ) (src : String) (dir : Bool)
    (path : String) (e : Entry) (s : σ)
    (h : e.hdr.Typeflag = TypeBlock ∨ e.hdr.Typeflag = TypeChar) :
    dispatch os src dir path e s = liftErr (decompTgzWrite os path e.hdr.FileInfoMode e s) := by
  rcases h with h | h <;>
    simp [dispatch, h, TypeReg, TypeRegA, TypeLink, TypeSymlink, TypeChar, TypeBlock, TypeDir,
      TypeFifo, TypeGNUSparse, TypeGNULongName, TypeGNULongLink]

theorem dispatch_deviceAsRegular {σ : Type} (os : OS σ) (src : String) (dir : Bool)
    (path : String) (e : Entry) (s : σ) :
    dispatch os src dir path (deviceAsRegular e) s = dispatch os src dir path e s := by
  by_cases h : e.hdr.Typeflag = TypeBlock ∨ e.hdr.Typeflag = TypeChar
  · rw [dispatch_device os src dir path e s h]
    have hw := decompTgzWrite_deviceAsRegular os path e.hdr.FileInfoMode e s
    simp only [deviceAsRegular, if_pos h] at hw ⊢
    rw [← hw]
    simp [dispatch, TypeReg, TypeRegA, TypeLink, TypeSymlink, TypeChar, TypeBlock, TypeDir,
      TypeFifo, TypeGNUSparse, TypeGNULongName, TypeGNULongLink]
  · simp [deviceAsRegular, if_neg h]

theorem loop_deviceAsRegular {σ : Type} (os : OS σ) (dst src : String) (dir : Bool) :
    ∀ (entries : List Entry) (done : Bool) (last : Option String) (s : σ),
      loop os dst src dir done (entries.map deviceAsRegular) last s =
        loop os dst src dir done entries last s
  | [], done, last, s => by cases last <;> simp [loop]
  | e :: rest, done, last, s => by
    have hname : (deviceAsRegular e).hdr.Name = e.hdr.Name := by
      unfold deviceAsRegular
      split_ifs <;> rfl
    rw [List.map_cons, loop_cons, loop_cons, hname, dispatch_deviceAsRegular]
    by_cases hc : (!dir && done) = true
    · simp [hc]
    · rw [if_neg hc, if_neg hc]
      rcases dispatch os src dir (if dir = true then filepath.Join dst e.hdr.Name else dst) e s
        with ⟨_ | err, s1⟩
      · exact loop_deviceAsRegular os dst src dir rest true last s1
      · rfl

theorem Decompress_of_tar {σ : Type} (os : OS σ) (dst src : String) (dir : Bool) (s s1 : σ)
    (entries : List Entry) (last : Option String)
    (hmk : os.MkdirAll (if !dir then filepath.Dir dst else dst) 0o755 s = (none, s1))
    (hsrc : os.Open src s1 = Source.tar entries last) :
    Decompress os dst src dir s = loop os dst src dir false entries last s1 := by
  simp only [Decompress, hmk, hsrc]

theorem Decompress_of_mkdir_err {σ : Type} (os : OS σ) (dst src : String) (dir : Bool)
    (s s1 : σ) (err : String)
    (hmk : os.MkdirAll (if !dir then filepath.Dir dst else dst) 0o755 s = (some err, s1)) :
    Decompress os dst src dir s = (some (Err.os err), s1) := by
  simp only [Decompress, hmk]

theorem Decompress_silentSymlink {σ : Type} (os : OS σ) (dst src : String) (dir : Bool)
    (s : σ) :
    Decompress (silentSymlink os) dst src dir s = Decompress os dst src dir s := by
  have hM : (silentSymlink os).MkdirAll = os.MkdirAll := rfl
  have hO : (silentSymlink os).Open = os.Open := rfl
  simp only [Decompress, hM, hO, loop_silentSymlink]

theorem Decompress_fifoOnlyMknod {σ : Type} (os : OS σ) (dst src : String) (dir : Bool)
    (s : σ) :
    Decompress (fifoOnlyMknod os) dst src dir s = Decompress os dst src dir s := by
  have hM : (fifoOnlyMknod os).MkdirAll = os.MkdirAll := rfl
  have hO : (fifoOnlyMknod os).Open = os.Open := rfl
  simp only [Decompress, hM, hO, loop_fifoOnlyMknod]

theorem loop_mapEntries {σ : Type} (f : List Entry → List Entry) (os : OS σ)
    (dst src : String) (dir : Bool) :
    ∀ (entries : List Entry) (done : Bool) (last : Option String) (s : σ),
      loop (mapEntries f os) dst src dir done entries last s =
        loop os dst src dir done entries last s
  | [], done, last, s => by cases last <;> simp [loop]
  | e :: rest, done, last, s => by
    have hd : ∀ path, dispatch (mapEntries f os) src dir path e s = dispatch os src dir path e s :=
      fun _ => rfl
    rw [loop_cons, loop_cons, hd]
    by_cases hc : (!dir && done) = true
    · simp [hc]
    · rw [if_neg hc, if_neg hc]
      rcases dispatch os src dir (if dir = true then filepath.Join dst e.hdr.Name else dst) e s
        with ⟨_ | err, s1⟩
      · exact loop_mapEntries f os dst src dir rest true last s1
      · rfl

theorem Decompress_deviceAsRegular {σ : Type} (os : OS σ) (dst src : String) (dir : Bool)
    (s : σ) :
    Decompress (mapEntries (List.map deviceAsRegular) os) dst src dir s =
      Decompress os dst src dir s := by
  have hM : (mapEntries (List.map deviceAsRegular) os).MkdirAll = os.MkdirAll := rfl
  simp only [Decompress, hM]
  rcases hmk : os.MkdirAll (if (!dir) = true then filepath.Dir dst else dst) 0o755 s
    with ⟨_ | err, s1⟩
  · have hO : (mapEntries (List.map deviceAsRegular) os).Open src s1 =
        match os.Open src s1 with
        | .tar entries last => .tar (entries.map deviceAsRegular) last
        | .openErr e => .openErr e
        | .gzipErr e => .gzipErr e := rfl
    simp only [hO]
    rcases hsrc : os.Open src s1 with _ | _ | ⟨entries, last⟩
    · rfl
    · rfl
    · simp only
      rw [loop_mapEntries, loop_deviceAsRegular]
  · rfl

/-! ## Facts about `filepath.Clean` and `filepath.Join` -/

namespace filepath

theorem splitSlash_ne_nil (cs : List Char) : splitSlash cs ≠ [] := by
  induction cs with
  | nil => simp [splitSlash]
  | cons c cs ih =>
    rw [splitSlash]
    rcases h : splitSlash cs with _ | ⟨w, ws⟩
    · exact absurd h ih
    · simp only
      split_ifs <;> simp

theorem splitSlash_cons (c : Char) (cs : List Char) :
    ∃ w ws, splitSlash cs = w :: ws ∧
      splitSlash (c :: cs) = if c = '/' then [] :: w :: ws else (c :: w) :: ws := by
  rcases h : splitSlash cs with _ | ⟨w, ws⟩
  · exact absurd h (splitSlash_ne_nil cs)
  · exact ⟨w, ws, rfl, by rw [splitSlash, h]⟩

theorem splitSlash_noSlash (cs : List Char) : ∀ w ∈ splitSlash cs, '/' ∉ w := by
  induction cs with
  | nil => simp [splitSlash]
  | cons c cs ih =>
    obtain ⟨w, ws, h1, h2⟩ := splitSlash_cons c cs
    rw [h2]
    rw [h1] at ih
    intro v hv
    split_ifs at hv with hc
    · rcases List.mem_cons.1 hv with rfl | hv
      · simp
      · exact ih v hv
    · rcases List.mem_cons.1 hv with rfl | hv
      · have := ih w (List.mem_cons_self _ _)
        simp only [List.mem_cons, not_or]
        exact ⟨fun h => hc h.symm, this⟩
      · exact ih v (List.mem_cons_of_mem _ hv)

theorem splitSlash_append (a b : List Char) :
    splitSlash (a ++ '/' :: b) = splitSlash a ++ splitSlash b := by
  induction a with
  | nil =>
    obtain ⟨w, ws, h1, h2⟩ := splitSlash_cons '/' b
    simp only [List.nil_append, h2, if_true, h1]
    rfl
  | cons c a ih =>
    obtain ⟨w, ws, h1, h2⟩ := splitSlash_cons c a
    obtain ⟨w', ws', h1', h2'⟩ := splitSlash_cons c (a ++ '/' :: b)
    rw [List.cons_append, h2', h2]
    rw [ih, h1, List.cons_append] at h1'
    injection h1' with hw hws
    subst hw hws
    split_ifs <;> rfl

theorem splitSlash_of_noSlash (w : List Char) (h : '/' ∉ w) : splitSlash w = [w] := by
  induction w with
  | nil => rfl
  | cons c w ih =>
    simp only [List.mem_cons, not_or] at h
    rw [splitSlash, ih h.2]
    simp [Ne.symm h.1]

theorem splitSlash_joinSlash (E : List (List Char)) (hne : E ≠ [])
    (h : ∀ w ∈ E, '/' ∉ w) : splitSlash (joinSlash E) = E := by
  induction E with
  | nil => exact absurd rfl hne
  | cons w E ih =>
    rcases E with _ | ⟨w', E'⟩
    · exact splitSlash_of_noSlash w (h w (List.mem_cons_self _ _))
    · have hj : joinSlash (w :: w' :: E') = w ++ '/' :: joinSlash (w' :: E') := rfl
      rw [hj, splitSlash_append, splitSlash_of_noSlash w (h w (List.mem_cons_self _ _)),
        ih (List.cons_ne_nil _ _) (fun v hv => h v (List.mem_cons_of_mem _ hv))]
      rfl


theorem GoodStk_tail {r : Bool} {A B : List (List Char)} (h : GoodStk r (A ++ B)) :
    GoodStk r B := by
  induction A with
  | nil => exact h
  | cons a A ih => exact ih h.2.2

theorem cleanStep_skip (r : Bool) (stk : List (List Char)) (c : List Char)
    (h : c = [] ∨ c = ['.']) : cleanStep r stk c = stk := by
  unfold cleanStep
  rw [if_pos h]

theorem cleanStep_push (r : Bool) (stk : List (List Char)) (c : List Char)
    (h1 : c ≠ []) (h2 : c ≠ ['.']) (h3 : c ≠ ['.', '.']) : cleanStep r stk c = c :: stk := by
  unfold cleanStep
  rw [if_neg (by simp [h1, h2]), if_neg h3]

theorem cleanStep_dotdot_nil (r : Bool) :
    cleanStep r [] ['.', '.'] = if r then [] else [['.', '.']] := by
  unfold cleanStep
  rw [if_neg (by decide), if_pos rfl]

theorem cleanStep_dotdot_cons (r : Bool) (t : List Char) (rest : List (List Char)) :
    cleanStep r (t :: rest) ['.', '.'] =
      if t = ['.', '.'] then ['.', '.'] :: t :: rest else rest := by
  unfold cleanStep
  rw [if_neg (by decide), if_pos rfl]

theorem okElem_dotdot : okElem ['.', '.'] := ⟨by decide, by decide, by decide⟩

theorem cleanStep_good (r : Bool) (stk : List (List Char)) (c : List Char)
    (hs : GoodStk r stk) (hc : '/' ∉ c) : GoodStk r (cleanStep r stk c) := by
  by_cases h1 : c = [] ∨ c = ['.']
  · rw [cleanStep_skip r stk c h1]
    exact hs
  · simp only [not_or] at h1
    by_cases h2 : c = ['.', '.']
    · subst h2
      rcases stk with _ | ⟨t, rest⟩
      · rw [cleanStep_dotdot_nil]
        cases r
        · exact ⟨okElem_dotdot, fun _ => ⟨rfl, by simp⟩, trivial⟩
        · exact trivial
      · rw [cleanStep_dotdot_cons]
        by_cases ht : t = ['.', '.']
        · rw [if_pos ht]
          have h := hs.2.1 ht
          refine ⟨okElem_dotdot, fun _ => ⟨h.1, fun u hu => ?_⟩, hs⟩
          rcases List.mem_cons.1 hu with rfl | hu
          · exact ht
          · exact h.2 u hu
        · rw [if_neg ht]
          exact hs.2.2
    · rw [cleanStep_push r stk c h1.1 h1.2 h2]
      exact ⟨⟨h1.1, h1.2, hc⟩, fun h => absurd h h2, hs⟩

theorem foldl_cleanStep_good (r : Bool) (cs : List (List Char)) :
    ∀ stk, GoodStk r stk → (∀ c ∈ cs, '/' ∉ c) → GoodStk r (cs.foldl (cleanStep r) stk) := by
  induction cs with
  | nil => intro stk hs _; exact hs
  | cons c cs ih =>
    intro stk hs hc
    exact ih _ (cleanStep_good r stk c hs (hc c (List.mem_cons_self _ _)))
      (fun c' h' => hc c' (List.mem_cons_of_mem _ h'))

/-- Cleaning elements that already have the shape of a cleaned path keeps
all of them. -/
theorem foldl_cleanStep_of_good (r : Bool) (E : List (List Char)) :
    ∀ stk, GoodStk r (E.reverse ++ stk) → E.foldl (cleanStep r) stk = E.reverse ++ stk := by
  induction E with
  | nil => intro stk _; rfl
  | cons e E ih =>
    intro stk h
    rw [List.reverse_cons, List.append_assoc] at h
    have he := GoodStk_tail h
    simp only [List.singleton_append] at he h
    have hstep : cleanStep r stk e = e :: stk := by
      obtain ⟨⟨h1, h2, _⟩, h3, _⟩ := he
      by_cases hdd : e = ['.', '.']
      · obtain ⟨hr, hall⟩ := h3 hdd
        subst hdd hr
        rcases stk with _ | ⟨t, rest⟩
        · rw [cleanStep_dotdot_nil]
          rfl
        · rw [cleanStep_dotdot_cons, if_pos (hall t (List.mem_cons_self _ _))]
      · exact cleanStep_push r stk e h1 h2 hdd
    rw [List.foldl_cons, hstep, ih _ h, List.reverse_cons, List.append_assoc]
    rfl

theorem cleanElems_good (r : Bool) (x : List Char) : GoodStk r (cleanElems r x).reverse := by
  unfold cleanElems
  rw [List.reverse_reverse]
  exact foldl_cleanStep_good r _ [] trivial (splitSlash_noSlash x)

theorem GoodStk_noSlash {r : Bool} {stk : List (List Char)} (h : GoodStk r stk) :
    ∀ w ∈ stk, okElem w := by
  induction stk with
  | nil => simp
  | cons t rest ih =>
    intro w hw
    rcases List.mem_cons.1 hw with rfl | hw
    · exact h.1
    · exact ih h.2.2 w hw


theorem joinSlash_eq_nil {E : List (List Char)} (hE : ∀ w ∈ E, w ≠ [])
    (h : joinSlash E = []) : E = [] := by
  rcases E with _ | ⟨w, _ | ⟨w', E'⟩⟩
  · rfl
  · exact absurd h (hE w (List.mem_cons_self _ _))
  · have hj : joinSlash (w :: w' :: E') = w ++ '/' :: joinSlash (w' :: E') := rfl
    rw [hj] at h
    simp at h

theorem isRooted_joinSlash {E : List (List Char)} (hE : ∀ w ∈ E, okElem w) :
    isRooted (joinSlash E) = false := by
  rcases E with _ | ⟨w, E'⟩
  · rfl
  · obtain ⟨h1, _, h3⟩ := hE w (List.mem_cons_self _ _)
    rcases w with _ | ⟨c, w'⟩
    · exact absurd rfl h1
    · have hc : c ≠ '/' := fun h => h3 (by simp [h])
      rcases E' with _ | ⟨w', E''⟩
      · simp [joinSlash, isRooted, hc]
      · simp [joinSlash, isRooted, hc]


theorem cleanElems_okElem (r : Bool) (x : List Char) : ∀ w ∈ cleanElems r x, okElem w := by
  intro w hw
  exact GoodStk_noSlash (cleanElems_good r x) w (List.mem_reverse.2 hw)

/-- The elements of a path whose characters are the joined elements of a
cleaned path are those elements. -/
theorem cleanElems_joinSlash (r : Bool) (x : List Char) :
    cleanElems r (joinSlash (cleanElems r x)) = cleanElems r x := by
  have hg := cleanElems_good r x
  have hok := cleanElems_okElem r x
  generalize cleanElems r x = E at hg hok
  by_cases hE : E = []
  · subst hE
    rfl
  · unfold cleanElems
    rw [splitSlash_joinSlash E hE (fun w hw => (hok w hw).2.2),
      foldl_cleanStep_of_good r E [] (by rw [List.append_nil]; exact hg)]
    simp

theorem splitSlash_slash_cons (y : List Char) : splitSlash ('/' :: y) = [] :: splitSlash y := by
  have h := splitSlash_append [] y
  simpa [splitSlash] using h

theorem cleanElems_slash_cons (r : Bool) (y : List Char) :
    cleanElems r ('/' :: y) = cleanElems r y := by
  unfold cleanElems
  rw [splitSlash_slash_cons, List.foldl_cons, cleanStep_skip r [] [] (Or.inl rfl)]

/-- The text of a cleaned path has the rootedness and the elements it was
rendered from. -/
theorem render_data (r : Bool) (x : List Char) :
    isRooted (render r (cleanElems r x)).data = r ∧
      cleanElems r (render r (cleanElems r x)).data = cleanElems r x := by
  have hok := cleanElems_okElem r x
  unfold render
  cases r
  · simp only [Bool.false_eq_true, if_false]
    by_cases hb : joinSlash (cleanElems false x) = []
    · rw [if_pos hb]
      have hE := joinSlash_eq_nil (fun w hw => (hok w hw).1) hb
      rw [hE]
      exact ⟨by decide, by decide⟩
    · rw [if_neg hb]
      exact ⟨isRooted_joinSlash hok, cleanElems_joinSlash false x⟩
  · simp only [if_true]
    refine ⟨rfl, ?_⟩
    rw [cleanElems_slash_cons]
    exact cleanElems_joinSlash true x

theorem Clean_eq_render (x : String) :
    Clean x = render (isRooted x.data) (pathElems x) := by
  unfold Clean pathElems
  by_cases hx : x.data = []
  · rw [if_pos hx, hx]
    decide
  · rw [if_neg hx]

theorem Clean_data (x : String) :
    isRooted (Clean x).data = isRooted x.data ∧ pathElems (Clean x) = pathElems x := by
  have h := render_data (isRooted x.data) x.data
  rw [Clean_eq_render]
  unfold pathElems at h ⊢
  refine ⟨h.1, ?_⟩
  rw [h.1]
  exact h.2

/-- Cleaning a cleaned path changes nothing. -/
theorem Clean_Clean (x : String) : Clean (Clean x) = Clean x := by
  rw [Clean_eq_render (Clean x), (Clean_data x).1, (Clean_data x).2, ← Clean_eq_render]

theorem foldl_cleanStep_grow (r : Bool) (cs : List (List Char)) (h : ['.', '.'] ∉ cs) :
    ∀ stk, ∃ t, cs.foldl (cleanStep r) stk = t ++ stk := by
  induction cs with
  | nil => intro stk; exact ⟨[], rfl⟩
  | cons c cs ih =>
    intro stk
    simp only [List.mem_cons, not_or] at h
    obtain ⟨t, ht⟩ := ih h.2 (cleanStep r stk c)
    rw [List.foldl_cons, ht]
    by_cases h1 : c = [] ∨ c = ['.']
    · rw [cleanStep_skip r stk c h1]
      exact ⟨t, rfl⟩
    · simp only [not_or] at h1
      rw [cleanStep_push r stk c h1.1 h1.2 (Ne.symm h.1)]
      exact ⟨t ++ [c], by simp⟩

theorem elemsUnder_append (a t : List (List Char)) : elemsUnder a (a ++ t) = true := by
  induction a with
  | nil => rfl
  | cons x a ih => simp [elemsUnder, ih]

theorem data_ne_nil {s : String} (h : s ≠ "") : s.data ≠ [] := by
  rcases s with ⟨l⟩
  intro hl
  simp only at hl
  subst hl
  exact h rfl

theorem Under_refl (dst : String) : Under dst dst := by
  refine ⟨rfl, ?_⟩
  have h := elemsUnder_append (pathElems dst) []
  rwa [List.append_nil] at h

/-- A joined path lies under its first element when the second element has no
`..` among its elements. -/
theorem Under_Join (dst name : String) (hd : dst ≠ "")
    (hn : ['.', '.'] ∉ splitSlash name.data) : Under dst (Join dst name) := by
  unfold Join
  rw [if_pos hd]
  have hdata : (dst ++ "/" ++ name).data = dst.data ++ '/' :: name.data := by
    simp [String.data_append]
  have hne := data_ne_nil hd
  have hroot : isRooted (dst.data ++ '/' :: name.data) = isRooted dst.data := by
    rcases hdd : dst.data with _ | ⟨c, cs⟩
    · exact absurd hdd hne
    · rfl
  obtain ⟨h1, h2⟩ := Clean_data (dst ++ "/" ++ name)
  refine ⟨?_, ?_⟩
  · rw [h1, hdata, hroot]
  · rw [h2]
    unfold pathElems
    rw [hdata, hroot]
    unfold cleanElems
    rw [splitSlash_append, List.foldl_append]
    obtain ⟨t, ht⟩ := foldl_cleanStep_grow (isRooted dst.data) (splitSlash name.data) hn
      ((splitSlash dst.data).foldl (cleanStep (isRooted dst.data)) [])
    rw [ht, List.reverse_append]
    exact elemsUnder_append _ _

end filepath

/-! ## Facts about the device number -/

theorem testBit_mask (k j : Nat) (hk : k ≤ 64) :
    (2 ^ k * (2 ^ (64 - k) - 1)).testBit j = (decide (k ≤ j) && decide (j < 64)) := by
  rw [Nat.testBit_mul_pow_two, Nat.testBit_two_pow_sub_one]
  by_cases h : k ≤ j
  · simp only [ge_iff_le, h, decide_True, Bool.true_and]
    congr 1
    apply propext
    omega
  · simp [h]

theorem and_high_mask (x k : Nat) (hk : k ≤ 64) (hx : x < 2 ^ 64) :
    x &&& (2 ^ k * (2 ^ (64 - k) - 1)) = 2 ^ k * (x / 2 ^ k) := by
  apply Nat.eq_of_testBit_eq
  intro j
  rw [Nat.testBit_and, testBit_mask k j hk, Nat.testBit_mul_pow_two, ← Nat.shiftRight_eq_div_pow,
    Nat.testBit_shiftRight]
  by_cases h : k ≤ j
  · have hj : k + (j - k) = j := by omega
    rw [hj]
    by_cases h64 : j < 64
    · simp [h, h64]
    · have hlt : x < 2 ^ j :=
        lt_of_lt_of_le hx (Nat.pow_le_pow_right (by decide) (by omega))
      simp [h, h64, Nat.testBit_lt_two_pow hlt]
  · simp [h]

theorem and_not64_ff (x : Nat) (hx : x < 2 ^ 64) : x &&& not64 0xff = 2 ^ 8 * (x / 2 ^ 8) := by
  have h := and_high_mask x 8 (by decide) hx
  have hm : not64 0xff = 2 ^ 8 * (2 ^ (64 - 8) - 1) := by decide
  rw [hm]
  exact h

theorem and_not64_fff (x : Nat) (hx : x < 2 ^ 64) : x &&& not64 0xfff = 2 ^ 12 * (x / 2 ^ 12) := by
  have h := and_high_mask x 12 (by decide) hx
  have hm : not64 0xfff = 2 ^ 12 * (2 ^ (64 - 12) - 1) := by decide
  rw [hm]
  exact h

theorem makeDev_bits (M N : Nat) (hM : M < 2 ^ 31) (hN : N < 2 ^ 32) :
    (N &&& 0xff) ||| shl64 (M &&& 0xfff) 8 ||| shl64 (N &&& not64 0xff) 12
      ||| shl64 (M &&& not64 0xfff) 32 =
    N % 256 + (M % 4096) * 2 ^ 8 + (N / 256) * 2 ^ 20 + (M / 4096) * 2 ^ 44 := by
  have h1 : N &&& 0xff = N % 256 := Nat.and_pow_two_sub_one_eq_mod N 8
  have h2 : M &&& 0xfff = M % 4096 := Nat.and_pow_two_sub_one_eq_mod M 12
  have h3 := and_not64_ff N (by omega)
  have h4 := and_not64_fff M (by omega)
  rw [h1, h2, h3, h4]
  simp only [shl64, Nat.shiftLeft_eq]
  have e2 : M % 4096 * 2 ^ 8 % 2 ^ 64 = 2 ^ 8 * (M % 4096) := by omega
  have e3 : 2 ^ 8 * (N / 2 ^ 8) * 2 ^ 12 % 2 ^ 64 = 2 ^ 20 * (N / 256) := by omega
  have e4 : 2 ^ 12 * (M / 2 ^ 12) * 2 ^ 32 % 2 ^ 64 = 2 ^ 44 * (M / 4096) := by omega
  rw [e2, e3, e4]
  have o1 : 2 ^ 8 * (M % 4096) + N % 256 = 2 ^ 8 * (M % 4096) ||| N % 256 :=
    Nat.mul_add_lt_is_or (by omega) _
  have o2 : 2 ^ 20 * (N / 256) + (2 ^ 8 * (M % 4096) + N % 256) =
      2 ^ 20 * (N / 256) ||| (2 ^ 8 * (M % 4096) + N % 256) :=
    Nat.mul_add_lt_is_or (by omega) _
  have o3 : 2 ^ 44 * (M / 4096) + (2 ^ 20 * (N / 256) + (2 ^ 8 * (M % 4096) + N % 256)) =
      2 ^ 44 * (M / 4096) ||| (2 ^ 20 * (N / 256) + (2 ^ 8 * (M % 4096) + N % 256)) :=
    Nat.mul_add_lt_is_or (by omega) _
  rw [Nat.or_comm (N % 256), Nat.or_comm _ (2 ^ 20 * (N / 256)),
    Nat.or_comm _ (2 ^ 44 * (M / 4096)), ← o1, ← o2, ← o3]
  omega

/-! ## Facts about the in-memory filesystem -/

theorem FS.set_same (fs : FS) (k : String) (n : Node) : fs.set k n k = some n := by
  simp [FS.set]

theorem FS.set_other (fs : FS) (k q : String) (n : Node) (h : q ≠ k) : fs.set k n q = fs q := by
  simp [FS.set, h]

theorem FS.Mkdir_keeps (umask : Nat) (k parent : String) (perm : Nat) (fs : FS) (q : String)
    (n : Node) (h : fs q = some n) : (FS.Mkdir umask k parent perm fs).2 q = some n := by
  unfold FS.Mkdir
  rcases hk : fs k with _ | m
  · simp only
    split_ifs
    · have hq : q ≠ k := fun e => by rw [e, hk] at h; exact Option.noConfusion h
      simp only [FS.set_other fs k q _ hq, h]
    · exact h
  · exact h

theorem FS.mkdirAllElems_keeps (umask : Nat) (rooted : Bool) (perm : Nat) (q : String)
    (n : Node) :
    ∀ (elems : List (List Char)) (fs : FS), fs q = some n →
      (FS.mkdirAllElems umask rooted perm elems fs).2 q = some n
  | [], fs, h => by
    unfold FS.mkdirAllElems
    rcases fs (filepath.render rooted []) with _ | (_ | _ | _ | _) <;> exact h
  | e :: up, fs, h => by
    unfold FS.mkdirAllElems
    rcases fs (filepath.render rooted (e :: up).reverse) with _ | (_ | _ | _ | _)
    · simp only
      have hup : ((if up = [] then ((none : Option String), fs)
          else FS.mkdirAllElems umask rooted perm up fs)).2 q = some n := by
        split_ifs
        · exact h
        · exact FS.mkdirAllElems_keeps umask rooted perm q n up fs h
      rcases hr : (if up = [] then ((none : Option String), fs)
          else FS.mkdirAllElems umask rooted perm up fs) with ⟨_ | err, fs1⟩
      · rw [hr] at hup
        simp only at hup ⊢
        have hm := FS.Mkdir_keeps umask (filepath.render rooted (e :: up).reverse)
          (filepath.render rooted up.reverse) perm fs1 q n hup
        rcases hmk : FS.Mkdir umask (filepath.render rooted (e :: up).reverse)
          (filepath.render rooted up.reverse) perm fs1 with ⟨_ | err, fs2⟩
        · rw [hmk] at hm
          exact hm
        · rw [hmk] at hm
          simp only at hm ⊢
          rcases fs2 (filepath.render rooted (e :: up).reverse) with _ | (_ | _ | _ | _) <;>
            exact hm
      · rw [hr] at hup
        exact hup
    · exact h
    · exact h
    · exact h
    · exact h

theorem FS.MkdirAll_keeps (umask : Nat) (path : String) (perm : Nat) (fs : FS) (q : String)
    (n : Node) (h : fs q = some n) : (FS.MkdirAll umask path perm fs).2 q = some n := by
  unfold FS.MkdirAll
  split_ifs
  · exact h
  · exact FS.mkdirAllElems_keeps umask _ perm q n _ fs h

theorem FS.OpenFile_other (umask : Nat) (path : String) (mode : Nat) (fs : FS) (q : String)
    (h : q ≠ filepath.Clean path) : (FS.OpenFile umask path mode fs).2 q = fs q := by
  unfold FS.OpenFile
  by_cases hb : badLeaf path
  · rw [if_pos hb]
  · rw [if_neg hb]
    rcases fs (filepath.Clean path) with _ | (_ | _ | _ | _)
    · simp only
      by_cases hd : fs.isDir (parentKey path) = true
      · rw [if_pos hd]
        exact FS.set_other fs _ q _ h
      · rw [if_neg hd]
    · rfl
    · exact FS.set_other fs _ q _ h
    · rfl
    · rfl

theorem FS.Copy_other (path : String) (data : List Nat) (fs : FS) (q : String)
    (h : q ≠ filepath.Clean path) : (FS.Copy path data fs).2 q = fs q := by
  unfold FS.Copy
  rcases fs (filepath.Clean path) with _ | (_ | _ | _ | _)
  · rfl
  · rfl
  · exact FS.set_other fs _ q _ h
  · rfl
  · rfl

theorem FS.create_keeps (fs : FS) (k parent : String) (m : Node) (q : String) (n : Node)
    (h : fs q = some n) :
    (match fs k with
      | some _ => ((some "file exists" : Option String), fs)
      | none =>
        if fs.isDir parent then (none, fs.set k m)
        else (some "no such file or directory", fs)).2 q = some n := by
  rcases hk : fs k with _ | m'
  · simp only
    by_cases hd : fs.isDir parent = true
    · rw [if_pos hd]
      have hq : q ≠ k := fun e => by rw [e, hk] at h; exact Option.noConfusion h
      simp only [FS.set_other fs _ q _ hq, h]
    · rw [if_neg hd]
      exact h
  · exact h

theorem FS.Symlink_keeps (linkname path : String) (fs : FS) (q : String) (n : Node)
    (h : fs q = some n) : (FS.Symlink linkname path fs).2 q = some n := by
  unfold FS.Symlink
  by_cases hb : badLeaf path
  · rw [if_pos hb]
    exact h
  · rw [if_neg hb]
    exact FS.create_keeps fs _ _ _ q n h

theorem FS.Mknod_keeps (umask : Nat) (path : String) (mode dev : Nat) (fs : FS) (q : String)
    (n : Node) (h : fs q = some n) : (FS.Mknod umask path mode dev fs).2 q = some n := by
  unfold FS.Mknod
  by_cases hb : badLeaf path
  · rw [if_pos hb]
    exact h
  · rw [if_neg hb]
    by_cases hm : (mode % 2 ^ 16) &&& 0xf000 ≠ S_IFIFO ∨ dev ≠ 0
    · rw [if_pos hm]
      exact h
    · rw [if_neg hm]
      exact FS.create_keeps fs _ _ _ q n h

/-- A successful `OpenFile` leaves an empty file at the path; the file has the
mode it had when it was there before, and the mode asked for less the umask
when it is new. -/
theorem FS.OpenFile_ok (umask : Nat) (path : String) (mode : Nat) (fs fs1 : FS)
    (h : FS.OpenFile umask path mode fs = (none, fs1)) :
    ∃ perm, fs1 (filepath.Clean path) = some (Node.file perm []) ∧
      (fs (filepath.Clean path) = none → perm = applyUmask mode umask) ∧
      (∀ p0 c0, fs (filepath.Clean path) = some (Node.file p0 c0) → perm = p0) := by
  unfold FS.OpenFile at h
  by_cases hb : badLeaf path
  · rw [if_pos hb] at h
    exact absurd (congrArg Prod.fst h) (by simp)
  · rw [if_neg hb] at h
    rcases hk : fs (filepath.Clean path) with _ | (_ | ⟨p0, c0⟩ | _ | _)
    · rw [hk] at h
      simp only at h
      by_cases hd : fs.isDir (parentKey path) = true
      · rw [if_pos hd] at h
        have h2 := (Prod.mk.inj h).2
        subst h2
        exact ⟨applyUmask mode umask, FS.set_same fs _ _, fun _ => rfl,
          fun p0 c0 h0 => Option.noConfusion h0⟩
      · rw [if_neg hd] at h
        exact absurd (congrArg Prod.fst h) (by simp)
    · rw [hk] at h
      exact absurd (congrArg Prod.fst h) (by simp)
    · rw [hk] at h
      have h2 := (Prod.mk.inj h).2
      subst h2
      refine ⟨p0, FS.set_same fs _ _, fun h0 => Option.noConfusion h0, fun p1 c1 h1 => ?_⟩
      simp only [Option.some.injEq, Node.file.injEq] at h1
      exact h1.1
    · rw [hk] at h
      exact absurd (congrArg Prod.fst h) (by simp)
    · rw [hk] at h
      exact absurd (congrArg Prod.fst h) (by simp)

theorem FS.Copy_file (path : String) (data : List Nat) (fs : FS) (perm : Nat)
    (content : List Nat) (h : fs (filepath.Clean path) = some (Node.file perm content)) :
    FS.Copy path data fs =
      (none, fs.set (filepath.Clean path) (Node.file perm (content ++ data))) := by
  unfold FS.Copy
  rw [h]

theorem decompTgzWrite_of_open_err {σ : Type} (os : OS σ) (path : String) (mode : Nat)
    (e : Entry) (s s1 : σ) (err : String) (h : os.OpenFile path mode s = (some err, s1)) :
    decompTgzWrite os path mode e s = (some err, s1) := by
  simp only [decompTgzWrite, h]

theorem decompTgzWrite_of_copy_err {σ : Type} (os : OS σ) (path : String) (mode : Nat)
    (e : Entry) (s s1 s2 : σ) (err : String) (h : os.OpenFile path mode s = (none, s1))
    (hc : os.Copy path e.data s1 = (some err, s2)) :
    decompTgzWrite os path mode e s = (some err, s2) := by
  simp only [decompTgzWrite, h, hc]

theorem decompTgzWrite_of_copy_ok {σ : Type} (os : OS σ) (path : String) (mode : Nat)
    (e : Entry) (s s1 s2 : σ) (h : os.OpenFile path mode s = (none, s1))
    (hc : os.Copy path e.data s1 = (none, s2)) :
    decompTgzWrite os path mode e s = (e.readErr, s2) := by
  simp only [decompTgzWrite, h, hc]

theorem decompTgzWrite_fs_other (umask : Nat) (srcs : String → Source) (path : String)
    (mode : Nat) (e : Entry) (fs : FS) (q : String) (h : q ≠ filepath.Clean path) :
    (decompTgzWrite (fsOS umask srcs) path mode e fs).2 q = fs q := by
  have ho := FS.OpenFile_other umask path mode fs q h
  rcases hopen : FS.OpenFile umask path mode fs with ⟨_ | err, s1⟩
  · rw [hopen] at ho
    have hc := FS.Copy_other path e.data s1 q h
    rcases hcopy : FS.Copy path e.data s1 with ⟨_ | err, s2⟩
    · rw [hcopy] at hc
      rw [decompTgzWrite_of_copy_ok (fsOS umask srcs) path mode e fs s1 s2 hopen hcopy]
      exact hc.trans ho
    · rw [hcopy] at hc
      rw [decompTgzWrite_of_copy_err (fsOS umask srcs) path mode e fs s1 s2 err hopen hcopy]
      exact hc.trans ho
  · rw [hopen] at ho
    rw [decompTgzWrite_of_open_err (fsOS umask srcs) path mode e fs s1 err hopen]
    exact ho

/-- What `decompTgzWrite` does on the filesystem once the file could be
opened: the result is the read error of the body, if any, and the file holds
the bytes read. -/
theorem decompTgzWrite_fs_of_open (umask : Nat) (srcs : String → Source) (path : String)
    (mode : Nat) (e : Entry) (fs : FS) (h : (FS.OpenFile umask path mode fs).1 = none) :
    (decompTgzWrite (fsOS umask srcs) path mode e fs).1 = e.readErr ∧
    ∃ perm, (decompTgzWrite (fsOS umask srcs) path mode e fs).2 (filepath.Clean path) =
        some (Node.file perm e.data) ∧
      (fs (filepath.Clean path) = none → perm = applyUmask mode umask) ∧
      (∀ p0 c0, fs (filepath.Clean path) = some (Node.file p0 c0) → perm = p0) := by
  rcases hopen : FS.OpenFile umask path mode fs with ⟨o, s1⟩
  rw [hopen] at h
  simp only at h
  subst h
  obtain ⟨perm, h1, h2, h3⟩ := FS.OpenFile_ok umask path mode fs s1 hopen
  have hcopy := FS.Copy_file path e.data s1 perm [] h1
  rw [decompTgzWrite_of_copy_ok (fsOS umask srcs) path mode e fs s1 _ hopen hcopy]
  exact ⟨rfl, perm, by rw [List.nil_append]; exact FS.set_same _ _ _, h2, h3⟩

theorem decompTgzWrite_fs_ok (umask : Nat) (srcs : String → Source) (path : String)
    (mode : Nat) (e : Entry) (fs fs2 : FS)
    (h : decompTgzWrite (fsOS umask srcs) path mode e fs = (none, fs2)) :
    ∃ perm, fs2 (filepath.Clean path) = some (Node.file perm e.data) ∧
      (fs (filepath.Clean path) = none → perm = applyUmask mode umask) ∧
      (∀ p0 c0, fs (filepath.Clean path) = some (Node.file p0 c0) → perm = p0) := by
  have hopen : (FS.OpenFile umask path mode fs).1 = none := by
    rcases ho : FS.OpenFile umask path mode fs with ⟨_ | err, s1⟩
    · rfl
    · rw [decompTgzWrite_of_open_err (fsOS umask srcs) path mode e fs s1 err ho] at h
      exact absurd (congrArg Prod.fst h) (by simp)
  obtain ⟨_, perm, h1, h2, h3⟩ := decompTgzWrite_fs_of_open umask srcs path mode e fs hopen
  rw [h] at h1
  exact ⟨perm, h1, h2, h3⟩

theorem liftErr_snd {σ : Type} (r : Option String × σ) : (liftErr r).2 = r.2 := rfl

theorem liftErr_eq_none {σ : Type} (r : Option String × σ) (s : σ)
    (h : liftErr r = (none, s)) : r = (none, s) := by
  rcases r with ⟨_ | err, s1⟩
  · simpa [liftErr] using h
  · exact absurd (congrArg Prod.fst h) (by simp [liftErr])

/-- Dispatching an entry leaves an object of the filesystem as it is, unless
the entry is written as a file to the path of that object. -/
theorem dispatch_fs_keeps (umask : Nat) (srcs : String → Source) (src : String) (dir : Bool)
    (path : String) (e : Entry) (fs : FS) (q : String) (n : Node) (h : fs q = some n)
    (hw : isWriteType e.hdr.Typeflag → q ≠ filepath.Clean path) :
    (dispatch (fsOS umask srcs) src dir path e fs).2 q = some n := by
  have hwrite : isWriteType e.hdr.Typeflag →
      (liftErr (decompTgzWrite (fsOS umask srcs) path e.hdr.FileInfoMode e fs)).2 q = some n := by
    intro ht
    rw [liftErr_snd, decompTgzWrite_fs_other umask srcs path _ e fs q (hw ht)]
    exact h
  unfold dispatch
  simp only
  split_ifs with h1 h2 h3 h4 h5 h6 h7 h8
  · exact h
  · exact FS.MkdirAll_keeps umask path _ fs q n h
  · exact hwrite (by unfold isWriteType; tauto)
  · exact FS.Symlink_keeps _ path fs q n h
  · exact hwrite (by unfold isWriteType; tauto)
  · exact FS.Mknod_keeps umask path _ 0 fs q n h
  · exact hwrite (by unfold isWriteType; tauto)
  · exact hwrite (by unfold isWriteType; tauto)
  · exact h

/-- In directory mode the loop leaves an object of the filesystem as it is
when none of the entries is written as a file to the path of that object. -/
theorem loop_fs_keeps (umask : Nat) (srcs : String → Source) (dst src : String) (q : String)
    (n : Node) :
    ∀ (entries : List Entry) (done : Bool) (last : Option String) (fs : FS),
      fs q = some n →
      (∀ e ∈ entries, isWriteType e.hdr.Typeflag →
        q ≠ filepath.Clean (filepath.Join dst e.hdr.Name)) →
      (loop (fsOS umask srcs) dst src true done entries last fs).2 q = some n
  | [], done, last, fs, h, _ => by
    cases last <;> cases done <;> simp [loop, h]
  | e :: rest, done, last, fs, h, hw => by
    rw [loop_cons]
    simp only [Bool.not_true, Bool.false_and, Bool.false_eq_true, if_false, if_true]
    have hd := dispatch_fs_keeps umask srcs src true (filepath.Join dst e.hdr.Name) e fs q n h
      (hw e (List.mem_cons_self _ _))
    rcases hdis : dispatch (fsOS umask srcs) src true (filepath.Join dst e.hdr.Name) e fs
      with ⟨_ | err, fs1⟩
    · rw [hdis] at hd
      exact loop_fs_keeps umask srcs dst src q n rest true last fs1 hd
        (fun e' he' => hw e' (List.mem_cons_of_mem _ he'))
    · rw [hdis] at hd
      exact hd

/-- In directory mode a successful run of the loop over `pre ++ e :: post`
reaches `e` in the state that the entries of `pre` alone lead to. -/
theorem loop_append_ok {σ : Type} (os : OS σ) (dst src : String) (e : Entry)
    (post : List Entry) (last : Option String) (s2 : σ) :
    ∀ (pre : List Entry) (done : Bool) (s : σ),
      loop os dst src true done (pre ++ e :: post) last s = (none, s2) →
      loop os dst src true true (e :: post) last (loop os dst src true true pre none s).2 =
        (none, s2)
  | [], done, s, h => by
    rw [loop_nil]
    rw [List.nil_append, loop_cons] at h
    rw [loop_cons]
    simpa using h
  | p :: pre, done, s, h => by
    rw [List.cons_append, loop_cons] at h
    simp only [Bool.not_true, Bool.false_and, Bool.false_eq_true, if_false, if_true] at h
    rcases hdis : dispatch os src true (filepath.Join dst p.hdr.Name) p s with ⟨_ | err, s1⟩
    · rw [hdis] at h
      have hp : loop os dst src true true (p :: pre) none s =
          loop os dst src true true pre none s1 := by
        rw [loop_cons]
        simp [hdis]
      rw [hp]
      exact loop_append_ok os dst src e post last s2 pre true s1 h
    · rw [hdis] at h
      exact absurd (congrArg Prod.fst h) (by simp)

theorem FS.MkdirAll_ok_ne_empty (umask : Nat) (path : String) (perm : Nat) (fs fs1 : FS)
    (h : FS.MkdirAll umask path perm fs = (none, fs1)) : path ≠ "" := by
  intro hp
  unfold FS.MkdirAll at h
  rw [if_pos hp] at h
  exact absurd (congrArg Prod.fst h) (by simp)

theorem filepath.Clean_Join (dst name : String) (hd : dst ≠ "") :
    filepath.Clean (filepath.Join dst name) = filepath.Join dst name := by
  unfold filepath.Join
  rw [if_pos hd]
  exact filepath.Clean_Clean _

theorem Decompress_fs_ok (umask : Nat) (srcs : String → Source) (dst src : String) (dir : Bool)
    (fs fs2 : FS) (entries : List Entry) (last : Option String)
    (hsrc : srcs src = Source.tar entries last)
    (hok : Decompress (fsOS umask srcs) dst src dir fs = (none, fs2)) :
    (FS.MkdirAll umask (if !dir then filepath.Dir dst else dst) 0o755 fs).1 = none ∧
      loop (fsOS umask srcs) dst src dir false entries last
        (FS.MkdirAll umask (if !dir then filepath.Dir dst else dst) 0o755 fs).2 = (none, fs2) := by
  rcases hmk : FS.MkdirAll umask (if !dir then filepath.Dir dst else dst) 0o755 fs
    with ⟨_ | err, fs1⟩
  · rw [Decompress_of_tar (fsOS umask srcs) dst src dir fs fs1 entries last hmk hsrc] at hok
    exact ⟨rfl, hok⟩
  · rw [Decompress_of_mkdir_err (fsOS umask srcs) dst src dir fs fs1 err hmk] at hok
    exact absurd (congrArg Prod.fst hok) (by simp)

/-- In single-file mode an archive with one entry returns what the dispatch
of the entry returns. -/
theorem Decompress_single_mode_lone {σ : Type} (os : OS σ) (dst src : String)
    (s s1 : σ) (e : Entry)
    (hmk : os.MkdirAll (filepath.Dir dst) 0o755 s = (none, s1))
    (hsrc : os.Open src s1 = Source.tar [e] none) :
    Decompress os dst src false s = dispatch os src false dst e s1 := by
  rw [Decompress_of_tar os dst src false s s1 _ none hmk hsrc, loop_cons]
  rcases hd : dispatch os src false dst e s1 with ⟨_ | err, s2⟩ <;>
    simp [hd, loop_nil]

theorem liftErr_eq_some {σ : Type} (r : Option String × σ) (err : Err) (s : σ)
    (h : liftErr r = (some err, s)) : ∃ msg, err = Err.os msg ∧ r = (some msg, s) := by
  rcases r with ⟨_ | msg, s1⟩
  · exact absurd (congrArg Prod.fst h) (by simp [liftErr])
  · refine ⟨msg, ?_, ?_⟩
    · have h1 := congrArg Prod.fst h
      simp only [liftErr, Option.map_some', Option.some.injEq] at h1
      exact h1.symm
    · have h2 := congrArg Prod.snd h
      simp only [liftErr] at h2
      rw [h2]

/-- An error that the dispatch of an entry other than a directory returns is
the error of the write or of the `Mknod` of the entry, unchanged. -/
theorem dispatch_err_os {σ : Type} (os : OS σ) (src : String) (dir : Bool) (path : String)
    (e : Entry) (s : σ) (err : Err) (s2 : σ) (ht : e.hdr.Typeflag ≠ TypeDir)
    (h : dispatch os src dir path e s = (some err, s2)) :
    ∃ msg, err = Err.os msg ∧
      (decompTgzWrite os path e.hdr.FileInfoMode e s = (some msg, s2) ∨
        os.Mknod path ((e.hdr.FileInfoMode % 2 ^ 32) ||| S_IFIFO) 0 s = (some msg, s2)) := by
  unfold dispatch at h
  simp only [if_neg ht] at h
  split_ifs at h
  · obtain ⟨msg, h1, h2⟩ := liftErr_eq_some _ err s2 h
    exact ⟨msg, h1, Or.inl h2⟩
  · exact absurd (congrArg Prod.fst h) (by simp)
  · obtain ⟨msg, h1, h2⟩ := liftErr_eq_some _ err s2 h
    exact ⟨msg, h1, Or.inl h2⟩
  · obtain ⟨msg, h1, h2⟩ := liftErr_eq_some _ err s2 h
    exact ⟨msg, h1, Or.inr h2⟩
  · obtain ⟨msg, h1, h2⟩ := liftErr_eq_some _ err s2 h
    exact ⟨msg, h1, Or.inl h2⟩
  · obtain ⟨msg, h1, h2⟩ := liftErr_eq_some _ err s2 h
    exact ⟨msg, h1, Or.inl h2⟩
  · exact absurd (congrArg Prod.fst h) (by simp)

/-! ## Facts about the filesystem that follows a link -/

theorem parentKey_Clean (path : String) : parentKey (filepath.Clean path) = parentKey path := by
  have h := filepath.Clean_data path
  unfold filepath.pathElems at h
  unfold parentKey
  have h2 := h.2
  rw [h.1] at h2
  rw [h.1, h2]

theorem FS.resolve_of_none (fs : FS) (path : String) (h : fs (filepath.Clean path) = none) :
    fs.resolve path = filepath.Clean path := by
  unfold FS.resolve
  rw [h]

theorem FS.resolve_of_file (fs : FS) (path : String) (perm : Nat) (content : List Nat)
    (h : fs (filepath.Clean path) = some (Node.file perm content)) :
    fs.resolve path = filepath.Clean path := by
  unfold FS.resolve
  rw [h]

/-- Opening a path that names a regular file, or nothing in a directory that is
there, succeeds and leaves an empty file at the path. -/
theorem FS.OpenFileFollow_plain (umask : Nat) (path : String) (mode : Nat) (fs : FS)
    (hleaf : ¬ badLeaf path)
    (hnode : (fs.stat path = none ∧ fs.isDir (parentKey path) = true) ∨
      ∃ p c, fs.stat path = some (Node.file p c)) :
    ∃ perm, FS.OpenFileFollow umask path mode fs =
        (none, fs.set (filepath.Clean path) (Node.file perm [])) ∧
      (fs.stat path = none → perm = applyUmask mode umask) ∧
      (∀ p0 c0, fs.stat path = some (Node.file p0 c0) → perm = p0) := by
  unfold FS.stat at hnode ⊢
  unfold FS.OpenFileFollow
  rw [if_neg hleaf]
  rcases hnode with ⟨hn, hp⟩ | ⟨p, c, hf⟩
  · rw [FS.resolve_of_none fs path hn, hn]
    simp only
    rw [parentKey_Clean, if_pos hp]
    exact ⟨applyUmask mode umask, rfl, fun _ => rfl, fun p0 c0 h0 => Option.noConfusion h0⟩
  · rw [FS.resolve_of_file fs path p c hf, hf]
    refine ⟨p, rfl, fun h0 => Option.noConfusion h0, fun p0 c0 h0 => ?_⟩
    simp only [Option.some.injEq, Node.file.injEq] at h0
    exact h0.1

theorem FS.CopyFollow_file (path : String) (data : List Nat) (fs : FS) (perm : Nat)
    (content : List Nat) (h : fs (filepath.Clean path) = some (Node.file perm content)) :
    FS.CopyFollow path data fs =
      (none, fs.set (filepath.Clean path) (Node.file perm (content ++ data))) := by
  unfold FS.CopyFollow
  rw [FS.resolve_of_file fs path perm content h, h]

/-- What `decompTgzWrite` does, with links followed, at a path that names a
regular file or nothing: the file at the path holds the bytes read and no other
path changes. -/
theorem decompTgzWrite_follow_plain (umask : Nat) (srcs : String → Source) (path : String)
    (mode : Nat) (e : Entry) (fs : FS) (hleaf : ¬ badLeaf path)
    (hnode : (fs.stat path = none ∧ fs.isDir (parentKey path) = true) ∨
      ∃ p c, fs.stat path = some (Node.file p c)) :
    ∃ perm fs2, decompTgzWrite (fsFollowOS umask srcs) path mode e fs = (e.readErr, fs2) ∧
      fs2 (filepath.Clean path) = some (Node.file perm e.data) ∧
      (∀ q, q ≠ filepath.Clean path → fs2 q = fs q) ∧
      (fs.stat path = none → perm = applyUmask mode umask) ∧
      (∀ p0 c0, fs.stat path = some (Node.file p0 c0) → perm = p0) := by
  obtain ⟨perm, hopen, h1, h2⟩ := FS.OpenFileFollow_plain umask path mode fs hleaf hnode
  have hcopy := FS.CopyFollow_file path e.data
    (fs.set (filepath.Clean path) (Node.file perm [])) perm [] (FS.set_same _ _ _)
  refine ⟨perm, _, decompTgzWrite_of_copy_ok (fsFollowOS umask srcs) path mode e fs _ _
    hopen hcopy, ?_, ?_, h1, h2⟩
  · rw [List.nil_append]
    exact FS.set_same _ _ _
  · intro q hq
    rw [FS.set_other _ _ q _ hq, FS.set_other _ _ q _ hq]

/-! ## Facts about the environment with a log -/

theorem decompTgzWrite_record {σ : Type} (os : OS σ) (path : String) (mode : Nat) (e : Entry)
    (s : σ × List Call) :
    ∀ c ∈ (decompTgzWrite (recordOS os) path mode e s).2.2, c ∈ s.2 ∨ c.path = path := by
  intro c hc
  rcases ho : (recordOS os).OpenFile path mode s with ⟨_ | err, s1⟩
  · have hs1 : s1.2 = s.2 ++ [Call.openFile path mode] := by
      have := congrArg (fun r => r.2.2) ho
      exact this.symm
    rcases hcp : (recordOS os).Copy path e.data s1 with ⟨_ | err, s2⟩
    · have hs2 : s2.2 = s1.2 ++ [Call.copy path e.data] := by
        have := congrArg (fun r => r.2.2) hcp
        exact this.symm
      rw [decompTgzWrite_of_copy_ok (recordOS os) path mode e s s1 s2 ho hcp] at hc
      simp only [hs2, hs1, List.mem_append, List.mem_singleton] at hc
      rcases hc with (hc | hc) | hc
      · exact Or.inl hc
      · exact Or.inr (by rw [hc]; rfl)
      · exact Or.inr (by rw [hc]; rfl)
    · have hs2 : s2.2 = s1.2 ++ [Call.copy path e.data] := by
        have := congrArg (fun r => r.2.2) hcp
        exact this.symm
      rw [decompTgzWrite_of_copy_err (recordOS os) path mode e s s1 s2 err ho hcp] at hc
      simp only [hs2, hs1, List.mem_append, List.mem_singleton] at hc
      rcases hc with (hc | hc) | hc
      · exact Or.inl hc
      · exact Or.inr (by rw [hc]; rfl)
      · exact Or.inr (by rw [hc]; rfl)
  · have hs1 : s1.2 = s.2 ++ [Call.openFile path mode] := by
      have := congrArg (fun r => r.2.2) ho
      exact this.symm
    rw [decompTgzWrite_of_open_err (recordOS os) path mode e s s1 err ho] at hc
    simp only [hs1, List.mem_append, List.mem_singleton] at hc
    rcases hc with hc | hc
    · exact Or.inl hc
    · exact Or.inr (by rw [hc]; rfl)

theorem dispatch_record {σ : Type} (os : OS σ) (src : String) (dir : Bool) (path : String)
    (e : Entry) (s : σ × List Call) :
    ∀ c ∈ (dispatch (recordOS os) src dir path e s).2.2, c ∈ s.2 ∨ c.path = path := by
  intro c hc
  have hw := decompTgzWrite_record os path e.hdr.FileInfoMode e s c
  have h1 : ∀ (l : Call), l.path = path → c ∈ s.2 ++ [l] → c ∈ s.2 ∨ c.path = path := by
    intro l hl hmem
    rcases List.mem_append.1 hmem with h | h
    · exact Or.inl h
    · rw [List.mem_singleton] at h
      exact Or.inr (by rw [h]; exact hl)
  unfold dispatch at hc
  simp only at hc
  split_ifs at hc
  · exact Or.inl hc
  · exact h1 (Call.mkdirAll path e.hdr.FileInfoMode) rfl hc
  · exact hw hc
  · exact h1 (Call.symlink e.hdr.Linkname path) rfl hc
  · exact hw hc
  · exact h1 (Call.mknod path ((e.hdr.FileInfoMode % 2 ^ 32) ||| S_IFIFO) 0) rfl hc
  · exact hw hc
  · exact hw hc
  · exact Or.inl hc

theorem loop_record {σ : Type} (os : OS σ) (dst src : String) :
    ∀ (entries : List Entry) (done : Bool) (last : Option String) (s : σ × List Call),
      ∀ c ∈ (loop (recordOS os) dst src true done entries last s).2.2,
        c ∈ s.2 ∨ ∃ e ∈ entries, c.path = filepath.Join dst e.hdr.Name
  | [], done, last, s => by
    intro c hc
    cases last <;> cases done <;> simp [loop] at hc <;> exact Or.inl hc
  | e :: rest, done, last, s => by
    intro c hc
    rw [loop_cons] at hc
    simp only [Bool.not_true, Bool.false_and, Bool.false_eq_true, if_false, if_true] at hc
    have hd := dispatch_record os src true (filepath.Join dst e.hdr.Name) e s
    rcases hdis : dispatch (recordOS os) src true (filepath.Join dst e.hdr.Name) e s
      with ⟨_ | err, s1⟩
    · rw [hdis] at hc hd
      simp only at hc
      rcases loop_record os dst src rest true last s1 c hc with h | ⟨e', he', h⟩
      · rcases hd c h with h | h
        · exact Or.inl h
        · exact Or.inr ⟨e, List.mem_cons_self _ _, h⟩
      · exact Or.inr ⟨e', List.mem_cons_of_mem _ he', h⟩
    · rw [hdis] at hc hd
      simp only at hc
      rcases hd c hc with h | h
      · exact Or.inl h
      · exact Or.inr ⟨e, List.mem_cons_self _ _, h⟩

/-- The calls of a run of `Decompress` in directory mode: the preparation of
`dst`, and calls at the targets of entries that the source yields. -/
theorem Decompress_record {σ : Type} (os : OS σ) (dst src : String) (s : σ) :
    ∀ c ∈ (Decompress (recordOS os) dst src true (s, [])).2.2,
      c.path = dst ∨ ∃ entries last e, os.Open src (os.MkdirAll dst 0o755 s).2 =
        Source.tar entries last ∧ e ∈ entries ∧ c.path = filepath.Join dst e.hdr.Name := by
  intro c hc
  have hmem : c ∈ [Call.mkdirAll dst 0o755] → c.path = dst := by
    intro h
    rw [List.mem_singleton] at h
    rw [h]
    rfl
  rcases hmk : (recordOS os).MkdirAll dst 0o755 (s, []) with ⟨_ | err, s1⟩
  · have hs1 : s1 = ((os.MkdirAll dst 0o755 s).2, [Call.mkdirAll dst 0o755]) := by
      have := congrArg Prod.snd hmk
      exact this.symm
    rcases hsrc : (recordOS os).Open src s1 with msg | msg | ⟨entries, last⟩
    · have hD : Decompress (recordOS os) dst src true (s, []) = (some (Err.os msg), s1) := by
        simp only [Decompress, Bool.not_true, Bool.false_eq_true, if_false, hmk, hsrc]
      rw [hD, hs1] at hc
      exact Or.inl (hmem hc)
    · have hD : Decompress (recordOS os) dst src true (s, []) =
          (some (Err.gzip src msg), s1) := by
        simp only [Decompress, Bool.not_true, Bool.false_eq_true, if_false, hmk, hsrc]
      rw [hD, hs1] at hc
      exact Or.inl (hmem hc)
    · rw [Decompress_of_tar (recordOS os) dst src true (s, []) s1 entries last hmk hsrc] at hc
      rcases loop_record os dst src entries false last s1 c hc with h | ⟨e, he, h⟩
      · rw [hs1] at h
        exact Or.inl (hmem h)
      · refine Or.inr ⟨entries, last, e, ?_, he, h⟩
        rw [hs1] at hsrc
        exact hsrc
  · have hs1 : s1 = ((os.MkdirAll dst 0o755 s).2, [Call.mkdirAll dst 0o755]) := by
      have := congrArg Prod.snd hmk
      exact this.symm
    rw [Decompress_of_mkdir_err (recordOS os) dst src true (s, []) s1 err hmk, hs1] at hc
    exact Or.inl (hmem hc)

/-! ## The claims of the specification -/

/-- C1: when the directory preparation succeeds and the tar stream of the
source ends at the first call of `Next`, `Decompress` returns the error
`empty archive: <src>` in directory mode and in single-file mode alike, and so
never returns success. -/
theorem Decompress_empty_archive {σ : Type} (os : OS σ) (dst src : String) (dir : Bool)
    (s s1 : σ)
    (hmk : os.MkdirAll (if !dir then filepath.Dir dst else dst) 0o755 s = (none, s1))
    (hsrc : os.Open src s1 = Source.tar [] none) :
    Decompress os dst src dir s = (some (Err.emptyArchive src), s1) ∧
      (Err.emptyArchive src).Error = "empty archive: " ++ src := by
  refine ⟨?_, rfl⟩
  simp only [Decompress, hmk, hsrc, loop_nil]
  rfl

theorem Decompress_empty_archive_witness :
    Decompress (traceOS fun _ => Source.tar [] none) "/tmp/out.txt" "a.tgz" false [] =
        (some (Err.emptyArchive "a.tgz"), [Call.mkdirAll "/tmp" 0o755]) ∧
      (Err.emptyArchive "a.tgz").Error = "empty archive: " ++ "a.tgz" :=
  Decompress_empty_archive (traceOS fun _ => Source.tar [] none) "/tmp/out.txt" "a.tgz" false
    [] [Call.mkdirAll "/tmp" 0o755] (by decide) rfl

/-- C4, counterexample: in single-file mode the archive made of a directory
entry followed by a regular file has two entries and fails with
`expected a single file: a.tgz`, which is not the error
`expected a single file, got multiple: a.tgz`. -/
theorem Decompress_two_entries_not_multiple :
    (Decompress (traceOS fun _ => Source.tar
        [mkEntry "d" TypeDir [], mkEntry "f" TypeReg [104, 105]] none)
      "/tmp/out.txt" "a.tgz" false []).1 = some (Err.expectedSingle "a.tgz") ∧
    (Decompress (traceOS fun _ => Source.tar
        [mkEntry "d" TypeDir [], mkEntry "f" TypeReg [104, 105]] none)
      "/tmp/out.txt" "a.tgz" false []).1 ≠ some (Err.multiple "a.tgz") := by
  decide

/-- C4, amended: in single-file mode an archive with two or more entries never
yields success.  When the directory preparation succeeds and the first entry is
dispatched without an error, the error returned is
`expected a single file, got multiple`; when the first entry is a directory the
error is `expected a single file`.  When the directory preparation fails, its
error is returned as it is; when the dispatch of the first entry fails, the
error of the dispatch is returned, and for a first entry that is not a
directory this is the error, unchanged, that the write or the `Mknod` of the
entry reported. -/
theorem Decompress_single_mode_two_entries {σ : Type} (os : OS σ) (dst src : String) (s : σ)
    (e1 e2 : Entry) (rest : List Entry) (last : Option String)
    (hsrc : os.Open src (os.MkdirAll (filepath.Dir dst) 0o755 s).2 =
      Source.tar (e1 :: e2 :: rest) last) :
    (Decompress os dst src false s).1 ≠ none ∧
    (∀ s1 s2, os.MkdirAll (filepath.Dir dst) 0o755 s = (none, s1) →
      dispatch os src false dst e1 s1 = (none, s2) →
      Decompress os dst src false s = (some (Err.multiple src), s2)) ∧
    (∀ s1, os.MkdirAll (filepath.Dir dst) 0o755 s = (none, s1) →
      e1.hdr.Typeflag = TypeDir →
      Decompress os dst src false s = (some (Err.expectedSingle src), s1)) ∧
    (∀ msg s1, os.MkdirAll (filepath.Dir dst) 0o755 s = (some msg, s1) →
      Decompress os dst src false s = (some (Err.os msg), s1)) ∧
    (∀ s1 err s2, os.MkdirAll (filepath.Dir dst) 0o755 s = (none, s1) →
      dispatch os src false dst e1 s1 = (some err, s2) →
      Decompress os dst src false s = (some err, s2)) ∧
    (∀ s1 err s2, e1.hdr.Typeflag ≠ TypeDir →
      dispatch os src false dst e1 s1 = (some err, s2) →
      ∃ msg, err = Err.os msg ∧
        (decompTgzWrite os dst e1.hdr.FileInfoMode e1 s1 = (some msg, s2) ∨
          os.Mknod dst ((e1.hdr.FileInfoMode % 2 ^ 32) ||| S_IFIFO) 0 s1 = (some msg, s2))) := by
  refine ⟨?_, ?_, ?_, ?_, ?_, ?_⟩
  · rcases hmk : os.MkdirAll (filepath.Dir dst) 0o755 s with ⟨_ | err, s1⟩
    · rw [hmk] at hsrc
      rw [Decompress_of_tar os dst src false s s1 _ last hmk hsrc, loop_cons]
      rcases hd : dispatch os src false dst e1 s1 with ⟨_ | err, s2⟩ <;>
        simp [hd, loop_cons]
    · rw [Decompress_of_mkdir_err os dst src false s s1 err hmk]
      simp
  · intro s1 s2 hmk hd
    rw [hmk] at hsrc
    rw [Decompress_of_tar os dst src false s s1 _ last hmk hsrc]
    simp [loop_cons, hd]
  · intro s1 hmk ht
    rw [hmk] at hsrc
    rw [Decompress_of_tar os dst src false s s1 _ last hmk hsrc]
    simp [loop_cons, dispatch, ht]
  · intro msg s1 hmk
    exact Decompress_of_mkdir_err os dst src false s s1 msg hmk
  · intro s1 err s2 hmk hd
    rw [hmk] at hsrc
    rw [Decompress_of_tar os dst src false s s1 _ last hmk hsrc]
    simp [loop_cons, hd]
  · intro s1 err s2 ht hd
    exact dispatch_err_os os src false dst e1 s1 err s2 ht hd

theorem Decompress_single_mode_two_entries_witness :
    (Decompress (traceOS fun _ => Source.tar
        [mkEntry "f" TypeReg [104], mkEntry "g" TypeReg [105]] none)
      "/tmp/out.txt" "a.tgz" false []).1 = some (Err.multiple "a.tgz") := by
  have h := (Decompress_single_mode_two_entries
    (traceOS fun _ => Source.tar [mkEntry "f" TypeReg [104], mkEntry "g" TypeReg [105]] none)
    "/tmp/out.txt" "a.tgz" [] (mkEntry "f" TypeReg [104]) (mkEntry "g" TypeReg [105]) [] none
    rfl).2.1 [Call.mkdirAll "/tmp" 0o755]
    [Call.mkdirAll "/tmp" 0o755, Call.openFile "/tmp/out.txt" 0o644,
      Call.copy "/tmp/out.txt" [104]] (by decide) (by decide)
  rw [h]

/-- C5, counterexample: in single-file mode the archive whose only entry is a
symbolic link is extracted with success. -/
theorem Decompress_lone_symlink_succeeds :
    (Decompress (traceOS fun _ => Source.tar [mkEntry "l" TypeSymlink []] none)
      "/tmp/out.txt" "a.tgz" false []).1 = none := by
  decide

/-- C5, amended: in single-file mode, when the directory preparation succeeds,
an archive with a single entry returns what the dispatch of that entry returns.
A lone directory fails with `expected a single file`; a lone symbolic link
(or GNU long link) and a lone entry of unrecognized type yield success; a lone
FIFO yields the result of its `Mknod`, and a lone block or character device the
result of writing its body as a regular file. -/
theorem Decompress_single_mode_lone_entry {σ : Type} (os : OS σ) (dst src : String)
    (s s1 : σ) (e : Entry)
    (hmk : os.MkdirAll (filepath.Dir dst) 0o755 s = (none, s1))
    (hsrc : os.Open src s1 = Source.tar [e] none) :
    Decompress os dst src false s = dispatch os src false dst e s1 ∧
    (e.hdr.Typeflag = TypeDir →
      Decompress os dst src false s = (some (Err.expectedSingle src), s1)) ∧
    (e.hdr.Typeflag = TypeSymlink ∨ e.hdr.Typeflag = TypeGNULongLink →
      Decompress os dst src false s = (none, (os.Symlink e.hdr.Linkname dst s1).2)) ∧
    (¬ Recognized e.hdr.Typeflag → Decompress os dst src false s = (none, s1)) ∧
    (e.hdr.Typeflag = TypeFifo →
      Decompress os dst src false s =
        liftErr (os.Mknod dst ((e.hdr.FileInfoMode % 2 ^ 32) ||| S_IFIFO) 0 s1)) ∧
    (e.hdr.Typeflag = TypeBlock ∨ e.hdr.Typeflag = TypeChar →
      Decompress os dst src false s =
        liftErr (decompTgzWrite os dst e.hdr.FileInfoMode e s1)) := by
  have hD := Decompress_single_mode_lone os dst src s s1 e hmk hsrc
  refine ⟨hD, ?_, ?_, ?_, ?_, ?_⟩
  · intro h
    rw [hD]
    simp [dispatch, h]
  · intro h
    rw [hD]
    rcases h with h | h <;>
      simp [dispatch, h, TypeReg, TypeRegA, TypeLink, TypeSymlink, TypeChar, TypeBlock, TypeDir,
        TypeFifo, TypeGNUSparse, TypeGNULongName, TypeGNULongLink]
  · intro h
    rw [hD]
    exact dispatch_unrecognized os src false dst e s1 h
  · intro h
    rw [hD]
    simp [dispatch, h, TypeReg, TypeRegA, TypeLink, TypeSymlink, TypeChar, TypeBlock, TypeDir,
      TypeFifo, TypeGNUSparse, TypeGNULongName, TypeGNULongLink]
  · intro h
    rw [hD]
    exact dispatch_device os src false dst e s1 h

theorem Decompress_single_mode_lone_entry_witness :
    Decompress (traceOS fun _ => Source.tar [mkEntry "d" TypeDir []] none)
      "/tmp/out.txt" "a.tgz" false [] =
        (some (Err.expectedSingle "a.tgz"), [Call.mkdirAll "/tmp" 0o755]) :=
  (Decompress_single_mode_lone_entry
    (traceOS fun _ => Source.tar [mkEntry "d" TypeDir []] none)
    "/tmp/out.txt" "a.tgz" [] [Call.mkdirAll "/tmp" 0o755] (mkEntry "d" TypeDir [])
    (by decide) rfl).2.1 rfl

/-- C7: the error that `os.Symlink` reports is never looked at.  In directory
mode the result of `Decompress` is the one obtained in the environment whose
`Symlink` has the same effect and always reports success; and at a symbolic
link (or GNU long link) entry the loop does not return but goes on with the
entries after it, from the state the call left, whether the call failed or
not. -/
theorem Decompress_symlink_failure_ignored {σ : Type} (os : OS σ) (dst src : String) (s : σ) :
    Decompress os dst src true s = Decompress (silentSymlink os) dst src true s ∧
    ∀ (done : Bool) (e : Entry) (rest : List Entry) (last : Option String) (s1 : σ),
      e.hdr.Typeflag = TypeSymlink ∨ e.hdr.Typeflag = TypeGNULongLink →
      loop os dst src true done (e :: rest) last s1 =
        loop os dst src true true rest last
          (os.Symlink e.hdr.Linkname (filepath.Join dst e.hdr.Name) s1).2 := by
  constructor
  · exact (Decompress_silentSymlink os dst src true s).symm
  · intro done e rest last s1 h
    rw [loop_cons]
    rcases h with h | h <;>
      simp [dispatch, h, TypeReg, TypeRegA, TypeLink, TypeSymlink, TypeChar, TypeBlock, TypeDir,
        TypeFifo, TypeGNUSparse, TypeGNULongName, TypeGNULongLink]

/-- C8, counterexample: in directory mode the archive whose only entry has the
unrecognized type flag `7` is extracted with success, although the only call
made to the environment is the preparation of the destination directory: no
entry was materialized. -/
theorem Decompress_unrecognized_only_succeeds :
    Decompress (traceOS fun _ => Source.tar [mkEntry "x" 55 [1, 2]] none)
      "/tmp/out" "a.tgz" true [] = (none, [Call.mkdirAll "/tmp/out" 0o755]) := by
  decide

/-- C8, amended: the flag `done` is set as soon as an entry has been read,
before the entry is dispatched.  When the directory preparation succeeds:
success implies that the archive has at least one entry; the error
`empty archive` is returned exactly when the stream has no entry at all; and an
archive that has entries, all of unrecognized type, is extracted with success
and without any further call to the environment, in directory mode for any
number of entries and in single-file mode for one entry. -/
theorem Decompress_done_flag {σ : Type} (os : OS σ) (dst src : String) (dir : Bool)
    (s s1 : σ) (entries : List Entry) (last : Option String)
    (hmk : os.MkdirAll (if !dir then filepath.Dir dst else dst) 0o755 s = (none, s1))
    (hsrc : os.Open src s1 = Source.tar entries last) :
    ((Decompress os dst src dir s).1 = none → entries ≠ []) ∧
    ((Decompress os dst src dir s).1 = some (Err.emptyArchive src) ↔
      entries = [] ∧ last = none) ∧
    (entries ≠ [] → (∀ e ∈ entries, ¬ Recognized e.hdr.Typeflag) → last = none →
      dir = true ∨ entries.length = 1 →
      Decompress os dst src dir s = (none, s1)) := by
  rw [Decompress_of_tar os dst src dir s s1 entries last hmk hsrc]
  refine ⟨?_, ?_, ?_⟩
  · intro h hnil
    subst hnil
    cases last <;> simp [loop] at h
  · constructor
    · intro h
      rcases entries with _ | ⟨e, rest⟩
      · cases last
        · exact ⟨rfl, rfl⟩
        · simp [loop] at h
      · exact absurd h (loop_ne_emptyArchive os dst src dir (e :: rest) false last s1
          (Or.inr (List.cons_ne_nil _ _)))
    · rintro ⟨rfl, rfl⟩
      simp [loop]
  · intro hne hall hlast hmode
    subst hlast
    rcases hmode with hdir | hlen
    · subst hdir
      exact loop_unrecognized os dst src entries false s1 (Or.inr hne) hall
    · rcases entries with _ | ⟨e, _ | ⟨e2, rest⟩⟩
      · exact absurd rfl hne
      · rw [loop_cons, dispatch_unrecognized os src dir _ e s1 (hall e (List.mem_singleton_self e))]
        simp [loop_nil]
      · simp at hlen

theorem Decompress_done_flag_witness :
    Decompress (traceOS fun _ => Source.tar [mkEntry "x" 55 [1, 2]] none)
      "/tmp/out.txt" "a.tgz" false [] = (none, [Call.mkdirAll "/tmp" 0o755]) :=
  (Decompress_done_flag (traceOS fun _ => Source.tar [mkEntry "x" 55 [1, 2]] none)
    "/tmp/out.txt" "a.tgz" false [] [Call.mkdirAll "/tmp" 0o755] [mkEntry "x" 55 [1, 2]] none
    (by decide) rfl).2.2 (by simp) (by decide) rfl (Or.inr rfl)

/-- C10: a block or character device entry is dispatched exactly as a regular
file: its body is written with `decompTgzWrite`, the error of the write is the
error returned, and the loop goes on after it.  The result of `Decompress`, in
either mode, is unchanged when the device entries of the archive are replaced
by regular-file entries with the same name, mode and content, and unchanged
when `Mknod` is made to fail for every call that does not create a FIFO with
device number 0: no device node is ever requested. -/
theorem Decompress_device_as_regular {σ : Type} (os : OS σ) (dst src : String) (dir : Bool)
    (s : σ) :
    Decompress os dst src dir s =
      Decompress (mapEntries (List.map deviceAsRegular) os) dst src dir s ∧
    Decompress os dst src dir s = Decompress (fifoOnlyMknod os) dst src dir s ∧
    ∀ (path : String) (e : Entry) (s1 : σ),
      e.hdr.Typeflag = TypeBlock ∨ e.hdr.Typeflag = TypeChar →
      dispatch os src dir path e s1 = liftErr (decompTgzWrite os path e.hdr.FileInfoMode e s1) ∧
      dispatch os src dir path e s1 = dispatch os src dir path (deviceAsRegular e) s1 :=
  ⟨(Decompress_deviceAsRegular os dst src dir s).symm,
    (Decompress_fifoOnlyMknod os dst src dir s).symm,
    fun path e s1 h => ⟨dispatch_device os src dir path e s1 h,
      (dispatch_deviceAsRegular os src dir path e s1).symm⟩⟩

/-- C9, counterexample: for `major = 4096` and `minor = 0`, both within the
stated bounds, `decompTgzMakeDev` returns `2 ^ 44`, while the packing worded in
the claim, with the rest of `major` starting at bit 32, gives `2 ^ 32`. -/
theorem decompTgzMakeDev_major_4096 :
    (0 : Int) ≤ 4096 ∧ (4096 : Int) < 2 ^ 31 ∧ (0 : Int) ≤ 0 ∧ (0 : Int) < 2 ^ 32 ∧
      decompTgzMakeDev 4096 0 = 2 ^ 44 ∧ specMakeDev 4096 0 = 2 ^ 32 ∧
      decompTgzMakeDev 4096 0 ≠ specMakeDev 4096 0 := by
  decide

/-- C9, amended: for `0 ≤ major < 2 ^ 31` and `0 ≤ minor < 2 ^ 32` the result of
`decompTgzMakeDev` is the low byte of `minor` in bits 0 to 7, the low 12 bits
of `major` from bit 8, the rest of `minor` from bit 20 and the rest of `major`
from bit 44. -/
theorem decompTgzMakeDev_packing (major minor : Int) (h0 : 0 ≤ major) (h1 : major < 2 ^ 31)
    (h2 : 0 ≤ minor) (h3 : minor < 2 ^ 32) :
    decompTgzMakeDev major minor =
      minor % 256 + (major % 4096) * 2 ^ 8 + (minor / 256) * 2 ^ 20 + (major / 4096) * 2 ^ 44 := by
  obtain ⟨M, rfl⟩ := Int.eq_ofNat_of_zero_le h0
  obtain ⟨N, rfl⟩ := Int.eq_ofNat_of_zero_le h2
  have hM : M < 2 ^ 31 := by exact_mod_cast h1
  have hN : N < 2 ^ 32 := by exact_mod_cast h3
  have tM : toBits64 (M : Int) = M := by
    unfold toBits64
    have : ((M : Int) % 2 ^ 64) = M := Int.emod_eq_of_lt (by omega) (by omega)
    rw [this]; simp
  have tN : toBits64 (N : Int) = N := by
    unfold toBits64
    have : ((N : Int) % 2 ^ 64) = N := Int.emod_eq_of_lt (by omega) (by omega)
    rw [this]; simp
  simp only [decompTgzMakeDev, tM, tN, makeDev_bits M N hM hN]
  unfold ofBits64
  have hlt : (N % 256 + (M % 4096) * 2 ^ 8 + (N / 256) * 2 ^ 20 + (M / 4096) * 2 ^ 44) % 2 ^ 64
      = N % 256 + (M % 4096) * 2 ^ 8 + (N / 256) * 2 ^ 20 + (M / 4096) * 2 ^ 44 := by omega
  rw [hlt, if_pos (by omega)]
  push_cast
  rfl

theorem decompTgzMakeDev_packing_witness :
    decompTgzMakeDev 8 1 =
      (1 : Int) % 256 + ((8 : Int) % 4096) * 2 ^ 8 + ((1 : Int) / 256) * 2 ^ 20 +
        ((8 : Int) / 4096) * 2 ^ 44 :=
  decompTgzMakeDev_packing 8 1 (by decide) (by decide) (by decide) (by decide)

/-- C3, counterexample: extracting into `/tmp/out` an archive whose only entry
is the regular file `../../etc/passwd` succeeds, and the file is opened and
written at `/etc/passwd`, which is not under `/tmp/out`.  And with no `..` in
any name: for the archive made of the symbolic link `l` to `/etc/passwd` and
the regular file `l`, both targets are `/tmp/out/l`, the write follows the link
that the first entry created, and the file is created at `/etc/passwd`, where
nothing was. -/
theorem Decompress_escapes_dst :
    (filepath.Join "/tmp/out" "../../etc/passwd" = "/etc/passwd" ∧
    Decompress (traceOS fun _ => Source.tar [mkEntry "../../etc/passwd" TypeReg [114]] none)
      "/tmp/out" "a.tgz" true [] =
        (none, [Call.mkdirAll "/tmp/out" 0o755, Call.openFile "/etc/passwd" 0o644,
          Call.copy "/etc/passwd" [114]]) ∧
    ¬ filepath.Under "/tmp/out" "/etc/passwd") ∧
    (['.', '.'] ∉ filepath.splitSlash "l".data ∧
    filepath.Under "/tmp/out" (filepath.Join "/tmp/out" "l") ∧
    (Decompress (fsFollowOS 0o022 fun _ => Source.tar
        [mkSymlink "l" "/etc/passwd", mkEntry "l" TypeReg [114]] none)
      "/tmp/out" "a.tgz" true exampleLinkFS).1 = none ∧
    exampleLinkFS "/etc/passwd" = none ∧
    (Decompress (fsFollowOS 0o022 fun _ => Source.tar
        [mkSymlink "l" "/etc/passwd", mkEntry "l" TypeReg [114]] none)
      "/tmp/out" "a.tgz" true exampleLinkFS).2 "/etc/passwd" =
        some (Node.file 0o644 [114])) := by
  decide

/-- C3, amended: for a non-empty destination and an archive none of whose entry
names has a `..` element (absolute names included), in every environment every
path that `Decompress`, in directory mode, hands to a call that creates or
writes (`MkdirAll`, `OpenFile`, the copy into the opened file, `Symlink`,
`Mknod`) is under the destination as a path: it is `dst` or a target
`Join dst hdr.Name`, of which the cleaned destination is a path prefix.  This
bounds the paths handed to the calls, not the places where the operating
system puts the objects. -/
theorem Decompress_targets_under_dst {σ : Type} (os : OS σ) (dst src : String) (s : σ)
    (hd : dst ≠ "")
    (hn : ∀ entries last, os.Open src (os.MkdirAll dst 0o755 s).2 = Source.tar entries last →
      ∀ e ∈ entries, ['.', '.'] ∉ filepath.splitSlash e.hdr.Name.data) :
    (∀ entries last, os.Open src (os.MkdirAll dst 0o755 s).2 = Source.tar entries last →
      ∀ e ∈ entries, filepath.Under dst (filepath.Join dst e.hdr.Name)) ∧
    (∀ c ∈ (Decompress (recordOS os) dst src true (s, [])).2.2,
      filepath.Under dst c.path ∧
        (c.path = dst ∨ ∃ entries last e,
          os.Open src (os.MkdirAll dst 0o755 s).2 = Source.tar entries last ∧ e ∈ entries ∧
            c.path = filepath.Join dst e.hdr.Name)) := by
  have hU : ∀ entries last,
      os.Open src (os.MkdirAll dst 0o755 s).2 = Source.tar entries last →
      ∀ e ∈ entries, filepath.Under dst (filepath.Join dst e.hdr.Name) :=
    fun entries last h e he => filepath.Under_Join dst e.hdr.Name hd (hn entries last h e he)
  refine ⟨hU, ?_⟩
  intro c hc
  rcases Decompress_record os dst src s c hc with h | ⟨entries, last, e, hsrc, he, h⟩
  · refine ⟨?_, Or.inl h⟩
    rw [h]
    exact filepath.Under_refl dst
  · refine ⟨?_, Or.inr ⟨entries, last, e, hsrc, he, h⟩⟩
    rw [h]
    exact hU entries last hsrc e he

theorem Decompress_targets_under_dst_witness :
    filepath.Under "/tmp/out" (Call.openFile "/tmp/out/etc/passwd" 0o644).path :=
  ((Decompress_targets_under_dst
    (fsOS 0o022 fun _ => Source.tar [mkEntry "/etc/passwd" TypeReg [114]] none)
    "/tmp/out" "a.tgz" exampleFS (by decide)
    (fun entries last h => by
      have h1 : [mkEntry "/etc/passwd" TypeReg [114]] = entries := (Source.tar.inj h).1
      subst h1
      decide)).2
    (Call.openFile "/tmp/out/etc/passwd" 0o644) (by decide)).1

/-- C2, counterexample: the archive with two regular files named `a`, of mode
`0644` and contents `[120]` and `[121]`, is extracted with success into
`/tmp/out`, where a file `a` of mode `0600` was before.  Afterwards the file at
`/tmp/out/a` has the content of the second entry and the mode it had before:
neither the content nor the mode of the first entry. -/
theorem Decompress_duplicate_name_overwrites :
    (Decompress (fsOS 0o022 fun _ => Source.tar
        [mkEntry "a" TypeReg [120], mkEntry "a" TypeReg [121]] none)
      "/tmp/out" "a.tgz" true exampleFS).1 = none ∧
    (Decompress (fsOS 0o022 fun _ => Source.tar
        [mkEntry "a" TypeReg [120], mkEntry "a" TypeReg [121]] none)
      "/tmp/out" "a.tgz" true exampleFS).2 (filepath.Join "/tmp/out" "a") =
        some (Node.file 0o600 [121]) ∧
    (Decompress (fsOS 0o022 fun _ => Source.tar
        [mkEntry "a" TypeReg [120], mkEntry "a" TypeReg [121]] none)
      "/tmp/out" "a.tgz" true exampleFS).2 (filepath.Join "/tmp/out" "a") ≠
        some (Node.file 0o644 [120]) := by
  decide

/-- C2, amended: on the in-memory filesystem, where no path is resolved through
a symbolic link, if `Decompress` in directory mode returns success, then for
every regular-file entry `e` that no later entry of the archive is written to
the same target path as, the filesystem afterwards holds a regular file at
`Join dst e.Name` whose content is the content of `e`.  Its mode is the
permission bits of `e` less the umask when nothing was at the path when `e` was
reached, and the mode of the file that was there otherwise. -/
theorem Decompress_regular_files (umask : Nat) (srcs : String → Source) (dst src : String)
    (fs fs2 : FS) (pre post : List Entry) (e : Entry) (last : Option String)
    (hsrc : srcs src = Source.tar (pre ++ e :: post) last)
    (hreg : e.hdr.Typeflag = TypeReg ∨ e.hdr.Typeflag = TypeRegA)
    (hlater : ∀ e' ∈ post, isWriteType e'.hdr.Typeflag →
      filepath.Join dst e'.hdr.Name ≠ filepath.Join dst e.hdr.Name)
    (hok : Decompress (fsOS umask srcs) dst src true fs = (none, fs2)) :
    ∃ perm, fs2 (filepath.Join dst e.hdr.Name) = some (Node.file perm e.data) ∧
      ((loop (fsOS umask srcs) dst src true true pre none
          (FS.MkdirAll umask dst 0o755 fs).2).2 (filepath.Join dst e.hdr.Name) = none →
        perm = applyUmask e.hdr.FileInfoMode umask) ∧
      (∀ p0 c0, (loop (fsOS umask srcs) dst src true true pre none
          (FS.MkdirAll umask dst 0o755 fs).2).2 (filepath.Join dst e.hdr.Name) =
            some (Node.file p0 c0) → perm = p0) := by
  obtain ⟨hmk, hloop⟩ := Decompress_fs_ok umask srcs dst src true fs fs2 _ last hsrc hok
  simp only [Bool.not_true, Bool.false_eq_true, if_false] at hmk hloop
  have hd : dst ≠ "" :=
    FS.MkdirAll_ok_ne_empty umask dst 0o755 fs (FS.MkdirAll umask dst 0o755 fs).2
      (Prod.ext hmk rfl)
  have hk := filepath.Clean_Join dst e.hdr.Name hd
  have hmid := loop_append_ok (fsOS umask srcs) dst src e post last fs2 pre false _ hloop
  generalize (loop (fsOS umask srcs) dst src true true pre none
    (FS.MkdirAll umask dst 0o755 fs).2).2 = mid at hmid ⊢
  rw [loop_cons] at hmid
  simp only [Bool.not_true, Bool.false_and, Bool.false_eq_true, if_false, if_true] at hmid
  have hdisp : dispatch (fsOS umask srcs) src true (filepath.Join dst e.hdr.Name) e mid =
      liftErr (decompTgzWrite (fsOS umask srcs) (filepath.Join dst e.hdr.Name)
        e.hdr.FileInfoMode e mid) := by
    rcases hreg with h | h <;>
      simp [dispatch, h, TypeReg, TypeRegA, TypeLink, TypeSymlink, TypeChar, TypeBlock, TypeDir,
        TypeFifo, TypeGNUSparse, TypeGNULongName, TypeGNULongLink]
  rcases hdis : dispatch (fsOS umask srcs) src true (filepath.Join dst e.hdr.Name) e mid
    with ⟨_ | err, s1⟩
  · rw [hdis] at hmid
    simp only at hmid
    rw [hdisp] at hdis
    obtain ⟨perm, h1, h2, h3⟩ := decompTgzWrite_fs_ok umask srcs _ _ e mid s1
      (liftErr_eq_none _ _ hdis)
    rw [hk] at h1 h2 h3
    refine ⟨perm, ?_, h2, h3⟩
    have hkeep := loop_fs_keeps umask srcs dst src (filepath.Join dst e.hdr.Name)
      (Node.file perm e.data) post true last s1 h1
      (fun e' he' hw => by
        rw [filepath.Clean_Join dst e'.hdr.Name hd]
        exact fun heq => hlater e' he' hw heq.symm)
    rw [hmid] at hkeep
    exact hkeep
  · rw [hdis] at hmid
    exact absurd (congrArg Prod.fst hmid) (by simp)

theorem Decompress_regular_files_witness :
    ∃ perm, (Decompress (fsOS 0o022 fun _ => Source.tar
        [mkEntry "a" TypeReg [120], mkEntry "b" TypeReg [122], mkEntry "a" TypeReg [121]] none)
      "/tmp/out" "a.tgz" true exampleFS).2 (filepath.Join "/tmp/out" "b") =
        some (Node.file perm [122]) ∧
      ((loop (fsOS 0o022 fun _ => Source.tar
          [mkEntry "a" TypeReg [120], mkEntry "b" TypeReg [122], mkEntry "a" TypeReg [121]] none)
          "/tmp/out" "a.tgz" true true [mkEntry "a" TypeReg [120]] none
          (FS.MkdirAll 0o022 "/tmp/out" 0o755 exampleFS).2).2 (filepath.Join "/tmp/out" "b") =
            none →
        perm = applyUmask 0o644 0o022) ∧
      (∀ p0 c0, (loop (fsOS 0o022 fun _ => Source.tar
          [mkEntry "a" TypeReg [120], mkEntry "b" TypeReg [122], mkEntry "a" TypeReg [121]] none)
          "/tmp/out" "a.tgz" true true [mkEntry "a" TypeReg [120]] none
          (FS.MkdirAll 0o022 "/tmp/out" 0o755 exampleFS).2).2 (filepath.Join "/tmp/out" "b") =
            some (Node.file p0 c0) → perm = p0) :=
  Decompress_regular_files 0o022
    (fun _ => Source.tar
      [mkEntry "a" TypeReg [120], mkEntry "b" TypeReg [122], mkEntry "a" TypeReg [121]] none)
    "/tmp/out" "a.tgz" exampleFS _ [mkEntry "a" TypeReg [120]] [mkEntry "a" TypeReg [121]]
    (mkEntry "b" TypeReg [122]) none rfl (Or.inl rfl) (by decide) rfl

/-- C6, counterexample: in single-file mode, with `/tmp/out.txt` a symbolic
link to `/tmp/elsewhere`, the archive whose only entry is the regular file
`file.txt` is extracted with success to `/tmp/out.txt`: the link is followed,
the path `/tmp/out.txt` still holds the link and not a regular file, and the
file is created at `/tmp/elsewhere`, where nothing was.  And without any link,
for the entry name `.` the path `Join dst n` is `dst` itself, so that an object
is created at `Join dst n`. -/
theorem Decompress_single_file_through_link :
    ((Decompress (fsFollowOS 0o022 fun _ => Source.tar
        [mkEntry "file.txt" TypeReg [104, 105]] none)
      "/tmp/out.txt" "a.tgz" false exampleLinkFS).1 = none ∧
    (Decompress (fsFollowOS 0o022 fun _ => Source.tar
        [mkEntry "file.txt" TypeReg [104, 105]] none)
      "/tmp/out.txt" "a.tgz" false exampleLinkFS).2 "/tmp/out.txt" =
        some (Node.symlink "/tmp/elsewhere") ∧
    exampleLinkFS "/tmp/elsewhere" = none ∧
    (Decompress (fsFollowOS 0o022 fun _ => Source.tar
        [mkEntry "file.txt" TypeReg [104, 105]] none)
      "/tmp/out.txt" "a.tgz" false exampleLinkFS).2 "/tmp/elsewhere" =
        some (Node.file 0o644 [104, 105])) ∧
    (filepath.Join "/tmp/out.txt" "." = "/tmp/out.txt" ∧
    exampleFS (filepath.Join "/tmp/out.txt" ".") = none ∧
    (Decompress (fsFollowOS 0o022 fun _ => Source.tar [mkEntry "." TypeReg [104, 105]] none)
      "/tmp/out.txt" "a.tgz" false exampleFS).1 = none ∧
    (Decompress (fsFollowOS 0o022 fun _ => Source.tar [mkEntry "." TypeReg [104, 105]] none)
      "/tmp/out.txt" "a.tgz" false exampleFS).2 (filepath.Join "/tmp/out.txt" ".") =
        some (Node.file 0o644 [104, 105])) := by
  decide

/-- C6, amended: in single-file mode, for an archive that consists of one
regular-file entry whose body is read without error, when the directory of
`dst` could be prepared and `dst`, which does not end with a separator, then
names a regular file, or nothing in a directory that is there (so that `dst` is
not a symbolic link, which would be followed), `Decompress` returns success
and the path `dst` names a regular file whose content is the content of the
entry; the file has the mode it had when it was there before, and the
permission bits of the entry less the umask when it is new.  The extraction
changes no other path of the filesystem that the preparation left: nothing is
created at `Join dst n` unless that is the path `dst` itself. -/
theorem Decompress_single_file (umask : Nat) (srcs : String → Source) (dst src : String)
    (fs fs1 : FS) (e : Entry)
    (hmk : FS.MkdirAll umask (filepath.Dir dst) 0o755 fs = (none, fs1))
    (hsrc : srcs src = Source.tar [e] none)
    (hreg : e.hdr.Typeflag = TypeReg ∨ e.hdr.Typeflag = TypeRegA)
    (hread : e.readErr = none)
    (hleaf : ¬ badLeaf dst)
    (hnode : (fs1.stat dst = none ∧ fs1.isDir (parentKey dst) = true) ∨
      ∃ p c, fs1.stat dst = some (Node.file p c)) :
    (Decompress (fsFollowOS umask srcs) dst src false fs).1 = none ∧
    (∃ perm, (Decompress (fsFollowOS umask srcs) dst src false fs).2.stat dst =
        some (Node.file perm e.data) ∧
      (fs1.stat dst = none → perm = applyUmask e.hdr.FileInfoMode umask) ∧
      (∀ p0 c0, fs1.stat dst = some (Node.file p0 c0) → perm = p0)) ∧
    (∀ q, q ≠ filepath.Clean dst →
      (Decompress (fsFollowOS umask srcs) dst src false fs).2 q = fs1 q) ∧
    (filepath.Join dst e.hdr.Name ≠ filepath.Clean dst →
      (Decompress (fsFollowOS umask srcs) dst src false fs).2 (filepath.Join dst e.hdr.Name) =
        fs1 (filepath.Join dst e.hdr.Name)) := by
  obtain ⟨perm, fs2, hw, h1, h2, h3, h4⟩ :=
    decompTgzWrite_follow_plain umask srcs dst e.hdr.FileInfoMode e fs1 hleaf hnode
  have hD : Decompress (fsFollowOS umask srcs) dst src false fs = (none, fs2) := by
    rw [Decompress_single_mode_lone (fsFollowOS umask srcs) dst src fs fs1 e hmk hsrc]
    have hd : dispatch (fsFollowOS umask srcs) src false dst e fs1 =
        liftErr (decompTgzWrite (fsFollowOS umask srcs) dst e.hdr.FileInfoMode e fs1) := by
      rcases hreg with h | h <;>
        simp [dispatch, h, TypeReg, TypeRegA, TypeLink, TypeSymlink, TypeChar, TypeBlock,
          TypeDir, TypeFifo, TypeGNUSparse, TypeGNULongName, TypeGNULongLink]
    rw [hd, hw, hread]
    rfl
  rw [hD]
  exact ⟨rfl, ⟨perm, h1, h3, h4⟩, h2, h2 _⟩

theorem Decompress_single_file_witness :
    (Decompress (fsFollowOS 0o022 fun _ => Source.tar
        [mkEntry "file.txt" TypeReg [104, 105]] none)
      "/tmp/out.txt" "a.tgz" false exampleFS).1 = none ∧
    (Decompress (fsFollowOS 0o022 fun _ => Source.tar
        [mkEntry "file.txt" TypeReg [104, 105]] none)
      "/tmp/out.txt" "a.tgz" false exampleFS).2
        (filepath.Join "/tmp/out.txt" (mkEntry "file.txt" TypeReg [104, 105]).hdr.Name) =
      (FS.MkdirAll 0o022 (filepath.Dir "/tmp/out.txt") 0o755 exampleFS).2
        (filepath.Join "/tmp/out.txt" (mkEntry "file.txt" TypeReg [104, 105]).hdr.Name) :=
  have h := Decompress_single_file 0o022
    (fun _ => Source.tar [mkEntry "file.txt" TypeReg [104, 105]] none) "/tmp/out.txt" "a.tgz"
    exampleFS (FS.MkdirAll 0o022 (filepath.Dir "/tmp/out.txt") 0o755 exampleFS).2
    (mkEntry "file.txt" TypeReg [104, 105]) (Prod.ext (by decide) rfl) rfl (Or.inl rfl) rfl
    (by decide) (Or.inl (by decide))
  ⟨h.1, h.2.2.2 (by decide)⟩

end Getter
